import Mathlib

/-!
A shallow embedding of the `bitstream` Go package (`bitstream.go`) and proofs
of its specification.

Modelling conventions:
* Go `byte` values are `Nat`s kept `< 256`; operations that can overflow a
  byte in Go carry an explicit `% 256`.
* Go `uint64` values are `Nat`s kept `< 2^64`; overflowing operations carry
  an explicit `% 2^64`.
* The slice `backingStore []byte` is `Option (List Nat)`: `none` models the
  nil slice, `some l` a non-nil slice of length `l.length` (a Go slice made
  with `make([]byte, 0)` is non-nil and is modelled by `some []`).
* A Go slice index operation that may be out of range is modelled by a
  bounds-checked access returning `Option`; an out-of-range access, like an
  explicit `panic`, surfaces as the `panic` outcome.
* The capacity-doubling loop in `AppendBits` is the one loop in the package
  whose termination is not structural: it is modelled with explicit fuel
  (`growLoop`); exhausted fuel surfaces as the `timeout` outcome.  The
  wrappers use fuel `neededSize + 2`, which is proved sufficient whenever the
  loop starts from a positive size, so `timeout` is reachable only when the
  loop genuinely diverges (start size 0).
-/

set_option maxRecDepth 8000

namespace GoBitstream

/-- `type BitStream struct { nextBitIndex uint; backingStore []byte }` -/
structure BitStream where
  nextBitIndex : Nat
  backingStore : Option (List Nat)
deriving DecidableEq, Repr

/-- Outcome of a Go method call on a `BitStream` receiver: normal return,
returned `error` value, runtime panic, or non-termination (fuel exhausted in
the growth loop).  `err` and `panic` carry the receiver's state at the moment
the error is returned / the panic is raised. -/
inductive GoResult where
  | ok (s : BitStream) : GoResult
  | err (s : BitStream) : GoResult
  | panic (s : BitStream) : GoResult
  | timeout : GoResult
deriving DecidableEq, Repr

/-- `func (s *BitStream) Size() uint { return s.nextBitIndex }` -/
def BitStream.Size (s : BitStream) : Nat := s.nextBitIndex

/-- `func bytesNeededForBits(bitcount uint) uint` -/
def bytesNeededForBits (bitcount : Nat) : Nat :=
  bitcount / 8 + (if bitcount % 8 ≠ 0 then 1 else 0)

/-- `func topNBits(b byte, n uint) byte { return b >> (8 - n) }` (call sites
have `n ≤ 8`, so `8 - n` does not underflow in Go and matches `Nat`
subtraction). -/
def topNBits (b n : Nat) : Nat := b >>> (8 - n)

/-- `func bottomNBits(b byte, n uint) byte { return b & ((1 << n) - 1) }`
(call sites have `n ≤ 7`, so `1 << n` fits in a byte). -/
def bottomNBits (b n : Nat) : Nat := b &&& ((1 <<< n) - 1)

/-- The bytes of the backing store (`nil` reads as the empty slice). -/
def BitStream.storeBytes (s : BitStream) : List Nat := s.backingStore.getD []

/-- Bit `j` (MSB-first) of a byte sequence: bit `j % 8` counted from the most
significant end of byte `j / 8`; positions beyond the sequence read 0. -/
def listTestBit (l : List Nat) (j : Nat) : Bool :=
  (l.getD (j / 8) 0).testBit (7 - j % 8)

/-- Bit `j` of the backing store, MSB-first. -/
def BitStream.storeTestBit (s : BitStream) (j : Nat) : Bool :=
  listTestBit s.storeBytes j

/-- `s.backingStore[i] |= v`, bounds-checked: `none` models the Go
index-out-of-range panic. -/
def storeOr (l : List Nat) (i v : Nat) : Option (List Nat) :=
  if i < l.length then some (l.set i (l.getD i 0 ||| v)) else none

/-- `for nextSize <= neededSize { nextSize *= 2 }`, with fuel.  `none` means
the loop did not finish within `fuel` iterations. -/
def growLoop (fuel nextSize neededSize : Nat) : Option Nat :=
  match fuel with
  | 0 => none
  | fuel + 1 =>
      if nextSize ≤ neededSize then growLoop fuel (nextSize * 2) neededSize
      else some nextSize

/-- `nextStore := make([]byte, nextSize); copy(nextStore, old)`: the old
bytes followed by zero fill (at all reachable call sites
`old.length ≤ nextSize`). -/
def growStore (old : List Nat) (nextSize : Nat) : List Nat :=
  old.take nextSize ++ List.replicate (nextSize - old.length) 0

/-- The capacity-ensuring prologue of `AppendBits` (lines 84–95): if the
store is nil or its length is `≤ neededSize`, double from 16 (nil) or from
the current length until strictly above `neededSize`, then copy into a fresh
zero-filled buffer. -/
def ensureCapacity (s : BitStream) (neededSize : Nat) : Option (List Nat) :=
  match s.backingStore with
  | none =>
      match growLoop (neededSize + 2) 16 neededSize with
      | none => none
      | some n => some (growStore [] n)
  | some l =>
      if l.length ≤ neededSize then
        match growLoop (neededSize + 2) l.length neededSize with
        | none => none
        | some n => some (growStore l n)
      else some l

/-- The full-byte loop of `AppendBits` (lines 101–109): for each source byte,
OR its top part into the current byte and its bottom part into the next one.
`offset` and `bitsLeftInByte` are loop invariants in the source (the index
advances by 8 each iteration).  Returns the updated store and bit index, or
`none` on an out-of-range store index. -/
def writeFullBytes (offset bitsLeftInByte : Nat) :
    List Nat → Nat → List Nat → Option (List Nat × Nat)
  | store, nextBitIndex, [] => some (store, nextBitIndex)
  | store, nextBitIndex, bt :: rest =>
      let nextByteIndex := nextBitIndex / 8
      let top := topNBits bt bitsLeftInByte
      let bottom := bottomNBits bt offset
      match storeOr store nextByteIndex top with
      | none => none
      | some st1 =>
          match storeOr st1 (nextByteIndex + 1) ((bottom <<< bitsLeftInByte) % 256) with
          | none => none
          | some st2 => writeFullBytes offset bitsLeftInByte st2 (nextBitIndex + 8) rest

/-- The trailing-bits epilogue of `AppendBits` (lines 112–130), for
`size % 8 ≠ 0`; `lastByte` is `bits[numFullBytes]`. -/
def writeTrailing (bitsLeftInByte trailingBits lastByte : Nat)
    (store : List Nat) (nextBitIndex : Nat) : Option (List Nat × Nat) :=
  let topCount := min trailingBits bitsLeftInByte
  let bottomCount := trailingBits - topCount
  let nextByteIndex := nextBitIndex / 8
  let top := topNBits lastByte topCount
  let shiftAmount := 8 - nextBitIndex % 8 - topCount
  let shiftedTop := (top <<< shiftAmount) % 256
  match storeOr store nextByteIndex shiftedTop with
  | none => none
  | some st1 =>
      let nbi1 := nextBitIndex + topCount
      let nextByteIndex1 := nbi1 / 8
      if 0 < bottomCount then
        let bottom := bottomNBits (lastByte >>> (8 - topCount - bottomCount)) bottomCount
        let shiftedBottom := (bottom <<< (8 - bottomCount)) % 256
        match storeOr st1 nextByteIndex1 shiftedBottom with
        | none => none
        | some st2 => some (st2, nbi1 + bottomCount)
      else some (st1, nbi1)

/-- `func (s *BitStream) AppendBits(size uint, bits []byte)` (lines 77–131). -/
def BitStream.AppendBits (s : BitStream) (size : Nat) (bits : List Nat) : GoResult :=
  if bits.length < bytesNeededForBits size then .panic s
  else
    let neededSize := bytesNeededForBits (s.nextBitIndex + size)
    match ensureCapacity s neededSize with
    | none => .timeout
    | some store =>
        let numFullBytes := size / 8
        let offset := s.nextBitIndex % 8
        let bitsLeftInByte := 8 - offset
        match writeFullBytes offset bitsLeftInByte store s.nextBitIndex (bits.take numFullBytes) with
        | none => .panic { s with backingStore := some store }
        | some (st1, nbi1) =>
            if size % 8 ≠ 0 then
              match writeTrailing bitsLeftInByte (size % 8) (bits.getD numFullBytes 0) st1 nbi1 with
              | none => .panic { nextBitIndex := nbi1, backingStore := some st1 }
              | some (st2, nbi2) => .ok { nextBitIndex := nbi2, backingStore := some st2 }
            else .ok { nextBitIndex := nbi1, backingStore := some st1 }

/-- `func (s *BitStream) BitAt(index uint) byte` (lines 171–178).  `none`
models the explicit bounds panic and the slice-index panic. -/
def BitStream.BitAt (s : BitStream) (index : Nat) : Option Nat :=
  if index ≥ s.nextBitIndex then none
  else
    let byteIndex := index / 8
    let bitIndex := index % 8
    match s.backingStore with
    | none => none
    | some l =>
        if byteIndex < l.length then some ((l.getD byteIndex 0 >>> (7 - bitIndex)) &&& 1)
        else none

/-- The bit-copy loop of `BitsAt` (lines 187–196): `i` counts iterations done,
the last argument counts iterations remaining; `shift` is the source's signed
`int` counter that is reset to 7 at each byte boundary. -/
def bitsAtLoop (s : BitStream) (index : Nat) :
    Nat → List Nat → Nat → Int → Nat → Option (List Nat)
  | _, result, _, _, 0 => some result
  | i, result, byteIndex, shift, remaining + 1 =>
      let byteIndex := if shift < 0 then byteIndex + 1 else byteIndex
      let shift : Int := if shift < 0 then 7 else shift
      match s.BitAt (index + i) with
      | none => none
      | some bit =>
          match storeOr result byteIndex (bit <<< shift.toNat) with
          | none => none
          | some result => bitsAtLoop s index (i + 1) result byteIndex (shift - 1) remaining

/-- `func (s *BitStream) BitsAt(index uint, size uint) []byte` (lines 181–198). -/
def BitStream.BitsAt (s : BitStream) (index size : Nat) : Option (List Nat) :=
  if index + size > s.nextBitIndex then none
  else bitsAtLoop s index 0 (List.replicate (bytesNeededForBits size) 0) 0 7 size

/-- `copy(dst, src)` for byte slices: overwrites the first
`min dst.length src.length` entries of `dst` with those of `src`. -/
def goCopy (dst src : List Nat) : List Nat :=
  src.take dst.length ++ dst.drop src.length

/-- `binary.BigEndian.PutUint64` into a fresh 8-byte buffer. -/
def putUint64BE (v : Nat) : List Nat :=
  [(v >>> 56) % 256, (v >>> 48) % 256, (v >>> 40) % 256, (v >>> 32) % 256,
   (v >>> 24) % 256, (v >>> 16) % 256, (v >>> 8) % 256, v % 256]

/-- `binary.BigEndian.Uint64` of an 8-byte buffer. -/
def beUint64 (l : List Nat) : Nat :=
  l.getD 7 0 ||| l.getD 6 0 <<< 8 ||| l.getD 5 0 <<< 16 ||| l.getD 4 0 <<< 24 |||
  l.getD 3 0 <<< 32 ||| l.getD 2 0 <<< 40 ||| l.getD 1 0 <<< 48 ||| l.getD 0 0 <<< 56

/-- `func (s *BitStream) AppendBit(bit byte)` (lines 135–145). -/
def BitStream.AppendBit (s : BitStream) (bit : Nat) : GoResult :=
  if bit ≠ 0 ∧ bit ≠ 1 then .panic s
  else if bit = 0 then s.AppendBits 1 [0]
  else s.AppendBits 1 [128]

/-- `func (s *BitStream) AppendUint64(value uint64)` (lines 148–152). -/
def BitStream.AppendUint64 (s : BitStream) (value : Nat) : GoResult :=
  s.AppendBits 64 (putUint64BE value)

/-- `func (s *BitStream) AppendUint(value uint64, size uint)` (lines 155–168).
In Go, `(uint64)(1) << 64 = 0` so the mask wraps to `2^64 - 1`, which equals
the `Nat` value `(1 <<< 64) - 1`; `value << (64 - size)` is `uint64`
arithmetic, hence the `% 2^64`. -/
def BitStream.AppendUint (s : BitStream) (value size : Nat) : GoResult :=
  if size > 64 then .panic s
  else
    let mask := (1 <<< size) - 1
    if value &&& mask ≠ value then .panic s
    else
      let shifted := (value <<< (64 - size)) % 2 ^ 64
      s.AppendBits size (putUint64BE shifted)

/-- `func (s *BitStream) Uint64At(index uint) uint64` (lines 201–204). -/
def BitStream.Uint64At (s : BitStream) (index : Nat) : Option Nat :=
  match s.BitsAt index 64 with
  | none => none
  | some data => some (beUint64 data)

/-- `func (s *BitStream) UintAt(index uint, size uint) uint64` (lines
207–216).  For `size = 0` the Go shift `>> 64` of a `uint64` yields 0, as
does `Nat`'s `>>> 64` on a value `< 2^64`. -/
def BitStream.UintAt (s : BitStream) (index size : Nat) : Option Nat :=
  if size > 64 then none
  else
    match s.BitsAt index size with
    | none => none
    | some data => some (beUint64 (goCopy (List.replicate 8 0) data) >>> (64 - size))

/-- `func (s *BitStream) AppendBitstream(other *BitStream)` (lines 237–239). -/
def BitStream.AppendBitstream (s : BitStream) (other : BitStream) : GoResult :=
  s.AppendBits other.Size other.storeBytes

/-- `func (s *BitStream) Concat(other *BitStream) *BitStream` (lines
242–249).  Note `make([]byte, n)` yields a non-nil slice even for `n = 0`,
hence always `some`. -/
def BitStream.Concat (s other : BitStream) : GoResult :=
  let store := goCopy (List.replicate (bytesNeededForBits (s.Size + other.Size)) 0) s.storeBytes
  BitStream.AppendBitstream { nextBitIndex := s.nextBitIndex, backingStore := some store } other

/-- `func (s *BitStream) ToBytes() []byte` (lines 253–258). -/
def BitStream.ToBytes (s : BitStream) : List Nat :=
  goCopy (List.replicate (bytesNeededForBits s.Size) 0) s.storeBytes

/-- `const base32Alphabet = "ABCDEFGHIJKLMNOPQRSTUVWXYZ234567"`.  Go indexes
strings by byte, and the reverse map is `map[byte]byte`, so text is modelled
as a list of ASCII byte values: `A..Z` are 65..90, `2..7` are 50..55. -/
def base32Alphabet : List Nat :=
  [65, 66, 67, 68, 69, 70, 71, 72, 73, 74, 75, 76, 77, 78, 79, 80, 81, 82, 83, 84,
   85, 86, 87, 88, 89, 90, 50, 51, 52, 53, 54, 55]

/-- The lazily built reverse map `base32Reversed`: maps a byte of the
alphabet to its index (the alphabet has no repeated bytes, so the map's
last-write-wins construction agrees with the first index). -/
def base32Reversed (c : Nat) : Option Nat :=
  base32Alphabet.findIdx? (· == c)

/-- One iteration of the `MarshalBase32` loop per remaining 5-bit group;
`base32Alphabet[value]` is bounds-checked like the Go string index. -/
def marshalLoop (s : BitStream) : Nat → Nat → Option (List Nat)
  | _, 0 => some []
  | i, g + 1 =>
      match s.UintAt i 5 with
      | none => none
      | some value =>
          match base32Alphabet[value]? with
          | none => none
          | some c =>
              match marshalLoop s (i + 5) g with
              | none => none
              | some rest => some (c :: rest)

/-- `func (s *BitStream) MarshalBase32() string` (lines 274–284); the
returned string is its list of ASCII bytes. -/
def BitStream.MarshalBase32 (s : BitStream) : Option (List Nat) :=
  if s.Size % 5 ≠ 0 then none
  else marshalLoop s 0 (s.Size / 5)

/-- The per-character loop of `UnmarshalBase32`. -/
def unmarshalLoop : BitStream → List Nat → GoResult
  | s, [] => .ok s
  | s, c :: rest =>
      match base32Reversed c with
      | none => .err s
      | some value =>
          match s.AppendUint value 5 with
          | .ok s1 => unmarshalLoop s1 rest
          | r => r

/-- `func (s *BitStream) UnmarshalBase32(encoded string) error` (lines
287–299): resets the receiver to nil store and zero length, then decodes
byte by byte. -/
def BitStream.UnmarshalBase32 (_ : BitStream) (encoded : List Nat) : GoResult :=
  unmarshalLoop { nextBitIndex := 0, backingStore := none } encoded

/-- `func (s *BitStream) BitstreamAt(index uint, size uint) *BitStream`
(lines 302–306). -/
def BitStream.BitstreamAt (s : BitStream) (index size : Nat) : GoResult :=
  match s.BitsAt index size with
  | none => .panic { nextBitIndex := 0, backingStore := none }
  | some data => BitStream.AppendBits { nextBitIndex := 0, backingStore := none } size data

/-- `big.Int.BitLen` of a non-negative value. -/
def bitLen (v : Nat) : Nat := if v = 0 then 0 else Nat.log2 v + 1

/-- `value.FillBytes(make([]byte, len))`: big-endian magnitude, zero-padded
on the left (callers have checked `v < 2^(8*len)`). -/
def fillBytes (v len : Nat) : List Nat :=
  (List.range len).map fun i => (v >>> (8 * (len - 1 - i))) % 256

/-- `func (s *BitStream) AppendBigInt(value *big.Int, nbits uint)` (lines
309–328), for non-negative `value`. -/
def BitStream.AppendBigInt (s : BitStream) (value nbits : Nat) : GoResult :=
  if bitLen value > nbits then .panic s
  else
    let bytes := fillBytes value ((nbits + 7) / 8)
    let offset := nbits % 8
    if offset = 0 then s.AppendBits nbits bytes
    else
      let firstByte := bytes.getD 0 0
      match s.AppendUint firstByte offset with
      | .ok s1 => s1.AppendBits (nbits - offset) bytes.tail
      | r => r

/-- `new(big.Int).SetBytes`: big-endian bytes to a non-negative value. -/
def beBytesToNat (l : List Nat) : Nat := l.foldl (fun acc b => acc * 256 + b) 0

/-- `func (s *BitStream) BigIntAt(index uint, nbits uint) *big.Int` (lines
331–345).  `byte(firstByte)` is the Go conversion, hence `% 256`. -/
def BitStream.BigIntAt (s : BitStream) (index nbits : Nat) : Option Nat :=
  let offset := nbits % 8
  if offset = 0 then
    match s.BitsAt index nbits with
    | none => none
    | some rb => some (beBytesToNat rb)
  else
    match s.UintAt index offset with
    | none => none
    | some firstByte =>
        match s.BitsAt (index + offset) (nbits - offset) with
        | none => none
        | some rb => some (beBytesToNat (firstByte % 256 :: rb))

/-!  Invariants of reachable streams. -/

/-- The precondition on the receiver under which `AppendBits` is proved
correct: all store bytes are genuine bytes, every bit at or beyond the
logical length reads 0, a nil store means an empty stream, and a non-nil
store is nonempty (so the doubling loop makes progress). -/
def Pre (s : BitStream) : Prop :=
  (∀ i, s.storeBytes.getD i 0 < 256) ∧
  (∀ j, s.nextBitIndex ≤ j → s.storeTestBit j = false) ∧
  (s.backingStore = none → s.nextBitIndex = 0) ∧
  (∀ l, s.backingStore = some l → 1 ≤ l.length)

/-- Well-formedness of a reachable stream: `Pre` plus the strict capacity
margin: an allocated store is strictly longer than the bytes needed for the
current length. -/
def WF (s : BitStream) : Prop :=
  Pre s ∧ ∀ l, s.backingStore = some l → bytesNeededForBits s.nextBitIndex < l.length

/-!  ## Basic arithmetic and bit lemmas -/

theorem bytesNeededForBits_eq (n : Nat) : bytesNeededForBits n = (n + 7) / 8 := by
  simp only [bytesNeededForBits]
  split <;> omega

theorem byte_testBit_high {b k : Nat} (hb : b < 256) (hk : 8 ≤ k) :
    b.testBit k = false := by
  apply Nat.testBit_lt_two_pow
  calc b < 256 := hb
    _ = 2 ^ 8 := rfl
    _ ≤ 2 ^ k := Nat.pow_le_pow_right (by omega) hk

/-- The MSB-first value of the first `n` bits read off a bit source `f`. -/
def bitsVal (f : Nat → Bool) : Nat → Nat
  | 0 => 0
  | n + 1 => 2 * bitsVal f n + (f n).toNat

theorem bitsVal_lt (f : Nat → Bool) (n : Nat) : bitsVal f n < 2 ^ n := by
  induction n with
  | zero => simp [bitsVal]
  | succ n ih =>
      have : (f n).toNat ≤ 1 := Bool.toNat_le (f n)
      simp only [bitsVal, Nat.pow_succ]
      omega

theorem bitsVal_testBit (f : Nat → Bool) (n k : Nat) :
    (bitsVal f n).testBit k = (decide (k < n) && f (n - 1 - k)) := by
  induction n generalizing k with
  | zero => simp [bitsVal]
  | succ n ih =>
      have htn : (f n).toNat ≤ 1 := Bool.toNat_le (f n)
      cases k with
      | zero =>
          simp only [bitsVal, Nat.testBit_zero]
          rcases Bool.eq_false_or_eq_true (f n) with h | h <;> simp [h] <;> omega
      | succ k =>
          rw [Nat.testBit_add_one]
          have hdiv : (2 * bitsVal f n + (f n).toNat) / 2 = bitsVal f n := by omega
          simp only [bitsVal, hdiv, ih]
          have : n + 1 - 1 - (k + 1) = n - 1 - k := by omega
          rw [this]
          by_cases hk : k < n

          · simp [hk, Nat.lt_succ_of_lt hk, Nat.succ_lt_succ hk]
          · simp [hk, fun h => hk (Nat.lt_of_succ_lt_succ h)]

theorem bitsVal_congr {f g : Nat → Bool} (n : Nat) (h : ∀ j < n, f j = g j) :
    bitsVal f n = bitsVal g n := by
  induction n with
  | zero => rfl
  | succ n ih =>
      simp only [bitsVal, ih fun j hj => h j (Nat.lt_succ_of_lt hj),
        h n (Nat.lt_succ_self n)]

theorem bitsVal_eq_zero {f : Nat → Bool} {n : Nat} (h : ∀ j < n, f j = false) :
    bitsVal f n = 0 := by
  induction n with
  | zero => rfl
  | succ n ih =>
      simp [bitsVal, ih fun j hj => h j (Nat.lt_succ_of_lt hj), h n (Nat.lt_succ_self n)]

theorem bitsVal_split (f : Nat → Bool) (m n : Nat) :
    bitsVal f (m + n) = bitsVal f m * 2 ^ n + bitsVal (fun j => f (m + j)) n := by
  induction n with
  | zero => simp [bitsVal]
  | succ n ih =>
      show bitsVal f (m + n + 1) = _
      simp only [bitsVal, ih, Nat.pow_succ]
      ring

theorem bitsVal_recover {v n : Nat} (hv : v < 2 ^ n) :
    bitsVal (fun j => v.testBit (n - 1 - j)) n = v := by
  apply Nat.eq_of_testBit_eq
  intro k
  rw [bitsVal_testBit]
  by_cases hk : k < n
  · have : n - 1 - (n - 1 - k) = k := by omega
    simp [hk, this]
  · have : v.testBit k = false :=
      Nat.testBit_lt_two_pow (Nat.lt_of_lt_of_le hv (Nat.pow_le_pow_right (by omega) (by omega)))
    simp [hk, this]

theorem bitsVal_shiftRight (f : Nat → Bool) (m n : Nat) :
    bitsVal f (m + n) >>> n = bitsVal f m := by
  rw [bitsVal_split, Nat.shiftRight_eq_div_pow, Nat.mul_comm,
    Nat.mul_add_div (Nat.two_pow_pos n),
    Nat.div_eq_of_lt (bitsVal_lt _ n), Nat.add_zero]

/-!  ## listTestBit and store-manipulation lemmas -/

theorem getD_oob {l : List Nat} {i : Nat} (h : l.length ≤ i) : l.getD i 0 = 0 := by
  rw [List.getD_eq_getElem?_getD, List.getElem?_eq_none h, Option.getD_none]

theorem getD_set (l : List Nat) (i j v : Nat) :
    (l.set i v).getD j 0 = if i = j ∧ i < l.length then v else l.getD j 0 := by
  rw [List.getD_eq_getElem?_getD, List.getElem?_set, List.getD_eq_getElem?_getD]
  by_cases hij : i = j
  · subst hij
    by_cases hi : i < l.length <;> simp [hi]
    rw [List.getElem?_eq_none (by omega), Option.getD_none]
  · simp [hij]

theorem listTestBit_oob {l : List Nat} {j : Nat} (h : 8 * l.length ≤ j) :
    listTestBit l j = false := by
  rw [listTestBit, getD_oob (by omega), Nat.zero_testBit]

theorem listTestBit_cons (b : Nat) (l : List Nat) (j : Nat) :
    listTestBit (b :: l) j = if j < 8 then b.testBit (7 - j) else listTestBit l (j - 8) := by
  by_cases hj : j < 8
  · have h0 : j / 8 = 0 := by omega
    have h1 : j % 8 = j := by omega
    simp [listTestBit, h0, h1, hj]
  · have h0 : j / 8 = (j - 8) / 8 + 1 := by omega
    have h1 : j % 8 = (j - 8) % 8 := by omega
    simp [listTestBit, h0, h1, hj]

theorem listTestBit_or_write {l : List Nat} {i : Nat} (w : Nat) (hi : i < l.length)
    (p : Nat) :
    listTestBit (l.set i (l.getD i 0 ||| w)) p
      = (listTestBit l p || (decide (p / 8 = i) && w.testBit (7 - p % 8))) := by
  by_cases hpi : p / 8 = i
  · rw [listTestBit, listTestBit, getD_set, if_pos ⟨hpi.symm, hi⟩, hpi]
    simp [Nat.testBit_or]
  · rw [listTestBit, listTestBit, getD_set, if_neg (fun h => hpi h.1.symm)]
    simp [hpi]

theorem getD_lt_or_write {l : List Nat} {i w : Nat} (hl : ∀ k, l.getD k 0 < 256)
    (hw : w < 256) (k : Nat) : (l.set i (l.getD i 0 ||| w)).getD k 0 < 256 := by
  rw [getD_set]
  have h8 : (2 : Nat) ^ 8 = 256 := by norm_num
  split
  · exact h8 ▸ Nat.or_lt_two_pow (h8.symm ▸ hl i) (h8.symm ▸ hw)
  · exact hl k

theorem storeOr_eq_some {l : List Nat} {i : Nat} (v : Nat) (hi : i < l.length) :
    storeOr l i v = some (l.set i (l.getD i 0 ||| v)) := by
  simp [storeOr, hi]

theorem growStore_length {l : List Nat} {n : Nat} (h : l.length ≤ n) :
    (growStore l n).length = n := by
  simp [growStore]
  omega

theorem growStore_getD {l : List Nat} {n : Nat} (h : l.length ≤ n) (i : Nat) :
    (growStore l n).getD i 0 = if i < l.length then l.getD i 0 else 0 := by
  rw [growStore, List.getD_eq_getElem?_getD, List.getElem?_append]
  by_cases hi : i < l.length
  · rw [List.length_take]
    simp only [show min n l.length = l.length by omega, hi, if_pos]
    rw [List.getElem?_take_of_lt (by omega), List.getD_eq_getElem?_getD]
  · rw [List.length_take]
    simp only [show min n l.length = l.length by omega, hi, if_neg, if_false]
    rw [List.getElem?_replicate]
    split <;> simp [hi]

theorem growStore_listTestBit {l : List Nat} {n : Nat} (h : l.length ≤ n) (p : Nat) :
    listTestBit (growStore l n) p = listTestBit l p := by
  rw [listTestBit, listTestBit, growStore_getD h]
  by_cases hp : p / 8 < l.length
  · rw [if_pos hp]
  · rw [if_neg hp, getD_oob (show l.length ≤ p / 8 by omega)]

theorem goCopyZ_length (n : Nat) (src : List Nat) :
    (goCopy (List.replicate n 0) src).length = n := by
  simp [goCopy]
  omega

theorem goCopyZ_getD (n : Nat) (src : List Nat) (i : Nat) :
    (goCopy (List.replicate n 0) src).getD i 0 = if i < n then src.getD i 0 else 0 := by
  rw [goCopy, List.getD_eq_getElem?_getD, List.getElem?_append, List.length_take,
    List.length_replicate]
  by_cases hi : i < min n src.length
  · rw [if_pos hi, List.getElem?_take_of_lt (by omega), ← List.getD_eq_getElem?_getD,
      if_pos (by omega)]
  · rw [if_neg hi, List.drop_replicate, List.getElem?_replicate]
    by_cases hin : i < n
    · have hsrc : src.length ≤ i := by omega
      rw [if_pos (by omega), if_pos hin, getD_oob hsrc]
      rfl
    · rw [if_neg (by omega), if_neg hin]
      rfl

theorem goCopyZ_listTestBit (n : Nat) (src : List Nat) (p : Nat) :
    listTestBit (goCopy (List.replicate n 0) src) p
      = if p < 8 * n then listTestBit src p else false := by
  rw [listTestBit, goCopyZ_getD]
  by_cases hp : p < 8 * n
  · rw [if_pos (by omega), if_pos hp]
    rfl
  · rw [if_neg (by omega), if_neg hp, Nat.zero_testBit]

/-!  ## Per-byte write lemmas -/

theorem bottomNBits_eq_mod (b n : Nat) : bottomNBits b n = b % 2 ^ n := by
  rw [bottomNBits, Nat.one_shiftLeft, Nat.and_pow_two_sub_one_eq_mod]

theorem topWrite_testBit {bt off : Nat} (hb : bt < 256) (hoff : off < 8) {r : Nat}
    (hr : r < 8) :
    (topNBits bt (8 - off)).testBit (7 - r)
      = (decide (off ≤ r) && bt.testBit (7 - (r - off))) := by
  rw [topNBits, Nat.testBit_shiftRight, show 8 - (8 - off) = off by omega]
  by_cases hor : off ≤ r
  · rw [show off + (7 - r) = 7 - (r - off) by omega]
    simp [hor]
  · rw [byte_testBit_high hb (by omega)]
    simp [hor]

theorem bottomWrite_testBit {bt off : Nat} (hoff : off < 8) {r : Nat} (hr : r < 8) :
    ((bottomNBits bt off <<< (8 - off)) % 256).testBit (7 - r)
      = (decide (r < off) && bt.testBit (7 - (8 - off + r))) := by
  rw [bottomNBits_eq_mod, show (256 : Nat) = 2 ^ 8 by norm_num, Nat.testBit_mod_two_pow,
    Nat.testBit_shiftLeft, Nat.testBit_mod_two_pow]
  by_cases hro : r < off
  · rw [show 7 - r - (8 - off) = 7 - (8 - off + r) by omega]
    have c1 : 7 - r < 8 := by omega
    have c2 : 8 - off ≤ 7 - r := by omega
    have c3 : 7 - (8 - off + r) < off := by omega
    simp [c1, c2, c3, hro]
  · have c2 : ¬(8 - off ≤ 7 - r) := by omega
    simp [c2, hro]

theorem trailingTopWrite_testBit {bt off tc : Nat} (hb : bt < 256) (hoff : off < 8)
    (htc1 : 1 ≤ tc) (htc2 : tc ≤ 8 - off) {r : Nat} (hr : r < 8) :
    ((topNBits bt tc <<< (8 - off - tc)) % 256).testBit (7 - r)
      = (decide (off ≤ r ∧ r < off + tc) && bt.testBit (7 - (r - off))) := by
  rw [topNBits, show (256 : Nat) = 2 ^ 8 by norm_num, Nat.testBit_mod_two_pow,
    Nat.testBit_shiftLeft, Nat.testBit_shiftRight]
  by_cases hin : off ≤ r ∧ r < off + tc
  · have c1 : 7 - r < 8 := by omega
    have c2 : 8 - off - tc ≤ 7 - r := by omega
    rw [show 8 - tc + (7 - r - (8 - off - tc)) = 7 - (r - off) by omega]
    simp [c1, c2, hin.1, hin.2]
  · by_cases hc2 : 8 - off - tc ≤ 7 - r
    · -- the shifted index lands above the top `tc` bits of `topNBits bt tc`
      have : 8 ≤ 8 - tc + (7 - r - (8 - off - tc)) := by omega
      rw [byte_testBit_high hb this]
      simp [hin]
    · simp [hc2, hin]

theorem trailingBottomWrite_testBit {bt tc bc : Nat} (htc : 1 ≤ tc) (hbc : 1 ≤ bc)
    (htb : tc + bc ≤ 7) {r : Nat} (hr : r < 8) :
    ((bottomNBits (bt >>> (8 - tc - bc)) bc <<< (8 - bc)) % 256).testBit (7 - r)
      = (decide (r < bc) && bt.testBit (7 - (tc + r))) := by
  rw [bottomNBits_eq_mod, show (256 : Nat) = 2 ^ 8 by norm_num, Nat.testBit_mod_two_pow,
    Nat.testBit_shiftLeft, Nat.testBit_mod_two_pow, Nat.testBit_shiftRight]
  by_cases hrb : r < bc
  · have c1 : 7 - r < 8 := by omega
    have c2 : 8 - bc ≤ 7 - r := by omega
    have c3 : 7 - r - (8 - bc) < bc := by omega
    rw [show 8 - tc - bc + (7 - r - (8 - bc)) = 7 - (tc + r) by omega]
    simp [c1, c2, c3, hrb]
  · have c2 : ¬(8 - bc ≤ 7 - r) := by omega
    simp [c2, hrb]

/-!  ## Growth loop and capacity -/

theorem growLoop_zero_diverges : ∀ (fuel n : Nat), growLoop fuel 0 n = none := by
  intro fuel
  induction fuel with
  | zero => intro n; rfl
  | succ fuel ih =>
      intro n
      simp only [growLoop, Nat.zero_le, if_pos, Nat.zero_mul]
      exact ih n

theorem growLoop_pos : ∀ (fuel start n : Nat), 1 ≤ start → n + 1 ≤ start * 2 ^ fuel →
    ∃ r, growLoop (fuel + 1) start n = some r ∧ n < r ∧ start ≤ r := by
  intro fuel
  induction fuel with
  | zero =>
      intro start n h1 hle
      simp only [pow_zero, Nat.mul_one] at hle
      refine ⟨start, ?_, by omega, Nat.le_refl _⟩
      simp only [growLoop, if_neg (show ¬start ≤ n by omega)]
  | succ fuel ih =>
      intro start n h1 hle
      by_cases hsn : start ≤ n
      · have h2 : 1 ≤ start * 2 := by omega
        have hle2 : n + 1 ≤ start * 2 * 2 ^ fuel := by
          calc n + 1 ≤ start * 2 ^ (fuel + 1) := hle
            _ = start * 2 * 2 ^ fuel := by ring
        obtain ⟨r, hr, hnr, hsr⟩ := ih (start * 2) n h2 hle2
        exact ⟨r, by simp only [growLoop, if_pos hsn]; exact hr, hnr, by omega⟩
      · exact ⟨start, by simp only [growLoop, if_neg hsn], by omega, Nat.le_refl _⟩

theorem growLoop_fuel {start n : Nat} (h1 : 1 ≤ start) :
    ∃ r, growLoop (n + 2) start n = some r ∧ n < r ∧ start ≤ r := by
  have h2 : n + 1 ≤ start * 2 ^ (n + 1) := by
    have := Nat.lt_two_pow (n := n + 1)
    calc n + 1 ≤ 2 ^ (n + 1) := by omega
      _ ≤ start * 2 ^ (n + 1) := by
          conv_lhs => rw [← Nat.one_mul (2 ^ (n + 1))]
          exact Nat.mul_le_mul_right _ h1
  exact growLoop_pos (n + 1) start n h1 h2

theorem ensureCapacity_spec {s : BitStream} (hpre : Pre s) (neededSize : Nat) :
    ∃ store, ensureCapacity s neededSize = some store ∧
      neededSize < store.length ∧
      (∀ k, store.getD k 0 < 256) ∧
      (∀ p, listTestBit store p = s.storeTestBit p) := by
  obtain ⟨hbytes, _, hnil, hsome⟩ := hpre
  match hbs : s.backingStore with
  | none =>
      obtain ⟨r, hr, hnr, hsr⟩ := @growLoop_fuel 16 neededSize (by omega)
      refine ⟨growStore [] r, ?_, ?_, ?_, ?_⟩
      · simp only [ensureCapacity, hbs, hr]
      · rw [growStore_length (by simp)]; exact hnr
      · intro k
        rw [growStore_getD (by simp)]
        simp
      · intro p
        rw [growStore_listTestBit (by simp), BitStream.storeTestBit, BitStream.storeBytes, hbs]
        rfl
  | some l =>
      have hl1 : 1 ≤ l.length := hsome l hbs
      by_cases hgrow : l.length ≤ neededSize
      · obtain ⟨r, hr, hnr, hsr⟩ := @growLoop_fuel l.length neededSize hl1
        refine ⟨growStore l r, ?_, ?_, ?_, ?_⟩
        · simp only [ensureCapacity, hbs, if_pos hgrow, hr]
        · rw [growStore_length (by omega)]; exact hnr
        · intro k
          rw [growStore_getD (by omega)]
          have := hbytes k
          rw [BitStream.storeBytes, hbs] at this
          split
          · exact this
          · omega
        · intro p
          rw [growStore_listTestBit (by omega), BitStream.storeTestBit, BitStream.storeBytes, hbs]
          rfl
      · refine ⟨l, ?_, by omega, ?_, ?_⟩
        · simp only [ensureCapacity, hbs, if_neg hgrow]
        · intro k
          have := hbytes k
          rwa [BitStream.storeBytes, hbs] at this
        · intro p
          rw [BitStream.storeTestBit, BitStream.storeBytes, hbs]
          rfl

/-!  ## The full-byte write loop -/

theorem writeByte_testBit {store : List Nat} {nbi bt : Nat}
    (hcap : nbi / 8 + 1 < store.length) (hst : ∀ k, store.getD k 0 < 256) (hbt : bt < 256)
    (p : Nat) :
    listTestBit
      ((store.set (nbi / 8) (store.getD (nbi / 8) 0 ||| topNBits bt (8 - nbi % 8))).set
        (nbi / 8 + 1)
        ((store.set (nbi / 8)
            (store.getD (nbi / 8) 0 ||| topNBits bt (8 - nbi % 8))).getD (nbi / 8 + 1) 0 |||
          (bottomNBits bt (nbi % 8) <<< (8 - nbi % 8)) % 256)) p
      = (listTestBit store p ||
          (decide (nbi ≤ p ∧ p < nbi + 8) && bt.testBit (7 - (p - nbi)))) := by
  rw [listTestBit_or_write _ (by rw [List.length_set]; omega) p,
    listTestBit_or_write _ (by omega) p]
  by_cases hq1 : p / 8 = nbi / 8
  · have hq2 : ¬(p / 8 = nbi / 8 + 1) := by omega
    rw [hq1, topWrite_testBit hbt (by omega) (show p % 8 < 8 by omega)]
    by_cases hro : nbi % 8 ≤ p % 8
    · have hin : nbi ≤ p ∧ p < nbi + 8 := by omega
      have heq : p % 8 - nbi % 8 = p - nbi := by omega
      simp [hq1, hq2, hro, hin, heq]
    · have hni : ¬(nbi ≤ p ∧ p < nbi + 8) := by omega
      simp [hq1, hq2, hro, hni]
  · by_cases hq2 : p / 8 = nbi / 8 + 1
    · rw [bottomWrite_testBit (show nbi % 8 < 8 by omega) (show p % 8 < 8 by omega)]
      by_cases hro : p % 8 < nbi % 8
      · have hin : nbi ≤ p ∧ p < nbi + 8 := by omega
        have heq : 8 - nbi % 8 + p % 8 = p - nbi := by omega
        simp [hq1, hq2, hro, hin, heq]
      · have hni : ¬(nbi ≤ p ∧ p < nbi + 8) := by omega
        simp [hq1, hq2, hro, hni]
    · have hni : ¬(nbi ≤ p ∧ p < nbi + 8) := by omega
      simp [hq1, hq2, hni]

theorem writeFullBytes_cons {off blib : Nat} {store : List Nat} {nbi bt : Nat}
    (rest : List Nat) (h1 : nbi / 8 < store.length) (h2 : nbi / 8 + 1 < store.length) :
    writeFullBytes off blib store nbi (bt :: rest) =
      writeFullBytes off blib
        ((store.set (nbi / 8) (store.getD (nbi / 8) 0 ||| topNBits bt blib)).set (nbi / 8 + 1)
          ((store.set (nbi / 8) (store.getD (nbi / 8) 0 ||| topNBits bt blib)).getD
              (nbi / 8 + 1) 0 |||
            (bottomNBits bt off <<< blib) % 256))
        (nbi + 8) rest := by
  simp only [writeFullBytes, storeOr_eq_some _ h1]
  rw [storeOr_eq_some _ (show nbi / 8 + 1 <
      (store.set (nbi / 8) (store.getD (nbi / 8) 0 ||| topNBits bt blib)).length by
        rw [List.length_set]; exact h2)]

theorem writeFullBytes_spec :
    ∀ (bl store : List Nat) (nbi : Nat),
      (∀ k, store.getD k 0 < 256) →
      (∀ k, bl.getD k 0 < 256) →
      nbi / 8 + bl.length + 1 ≤ store.length →
      ∃ st, writeFullBytes (nbi % 8) (8 - nbi % 8) store nbi bl
          = some (st, nbi + 8 * bl.length) ∧
        st.length = store.length ∧ (∀ k, st.getD k 0 < 256) ∧
        ∀ p, listTestBit st p = (listTestBit store p ||
          (decide (nbi ≤ p ∧ p < nbi + 8 * bl.length) && listTestBit bl (p - nbi))) := by
  intro bl
  induction bl with
  | nil =>
      intro store nbi hst _ _
      refine ⟨store, by simp [writeFullBytes], rfl, hst, ?_⟩
      intro p
      have hni : ¬(nbi ≤ p ∧ p < nbi + 8 * ([] : List Nat).length) := by
        simp only [List.length_nil, Nat.mul_zero, Nat.add_zero]
        omega
      simp [hni]
  | cons bt rest ih =>
      intro store nbi hst hbl hcap
      simp only [List.length_cons] at hcap
      have hbt : bt < 256 := by simpa using hbl 0
      have h1 : nbi / 8 < store.length := by omega
      have h2 : nbi / 8 + 1 < store.length := by omega
      rw [writeFullBytes_cons rest h1 h2]
      have htop : topNBits bt (8 - nbi % 8) < 256 := by
        apply Nat.lt_of_le_of_lt _ hbt
        rw [topNBits, Nat.shiftRight_eq_div_pow]
        exact Nat.div_le_self _ _
      have hst2 : ∀ k,
          ((store.set (nbi / 8) (store.getD (nbi / 8) 0 ||| topNBits bt (8 - nbi % 8))).set
            (nbi / 8 + 1)
            ((store.set (nbi / 8)
                (store.getD (nbi / 8) 0 ||| topNBits bt (8 - nbi % 8))).getD (nbi / 8 + 1) 0 |||
              (bottomNBits bt (nbi % 8) <<< (8 - nbi % 8)) % 256)).getD k 0 < 256 := by
        intro k
        apply getD_lt_or_write (fun j => getD_lt_or_write hst htop j)
          (Nat.mod_lt _ (by norm_num)) k
      have hlen2 :
          ((store.set (nbi / 8) (store.getD (nbi / 8) 0 ||| topNBits bt (8 - nbi % 8))).set
            (nbi / 8 + 1)
            ((store.set (nbi / 8)
                (store.getD (nbi / 8) 0 ||| topNBits bt (8 - nbi % 8))).getD (nbi / 8 + 1) 0 |||
              (bottomNBits bt (nbi % 8) <<< (8 - nbi % 8)) % 256)).length = store.length := by
        rw [List.length_set, List.length_set]
      obtain ⟨st, heq, hlen, hbytes, hbits⟩ :=
        ih _ (nbi + 8) hst2 (fun k => by simpa using hbl (k + 1))
          (by rw [hlen2]; omega)
      rw [show (nbi + 8) % 8 = nbi % 8 by omega] at heq
      refine ⟨st, ?_, by rw [hlen, hlen2], hbytes, ?_⟩
      · rw [heq]
        congr 1
        congr 1
        simp only [List.length_cons]
        ring
      · intro p
        rw [hbits p, writeByte_testBit h2 hst hbt p, listTestBit_cons]
        simp only [List.length_cons]
        by_cases hr1 : p < nbi
        · have d1 : decide (nbi ≤ p ∧ p < nbi + 8) = false := by
            apply decide_eq_false; omega
          have d2 : decide (nbi + 8 ≤ p ∧ p < nbi + 8 + 8 * rest.length) = false := by
            apply decide_eq_false; omega
          have d3 : decide (nbi ≤ p ∧ p < nbi + 8 * (rest.length + 1)) = false := by
            apply decide_eq_false; omega
          rw [d1, d2, d3]
          simp only [Bool.false_and, Bool.or_false]
        · by_cases hr2 : p < nbi + 8
          · have d1 : decide (nbi ≤ p ∧ p < nbi + 8) = true := by
              apply decide_eq_true; omega
            have d2 : decide (nbi + 8 ≤ p ∧ p < nbi + 8 + 8 * rest.length) = false := by
              apply decide_eq_false; omega
            have d3 : decide (nbi ≤ p ∧ p < nbi + 8 * (rest.length + 1)) = true := by
              apply decide_eq_true; omega
            rw [d1, d2, d3, if_pos (show p - nbi < 8 by omega)]
            simp only [Bool.true_and, Bool.false_and, Bool.or_false]
          · have d1 : decide (nbi ≤ p ∧ p < nbi + 8) = false := by
              apply decide_eq_false; omega
            have e5 : p - nbi - 8 = p - (nbi + 8) := by omega
            rw [d1, if_neg (show ¬(p - nbi < 8) by omega), e5]
            simp only [Bool.false_and, Bool.or_false]
            by_cases hr3 : p < nbi + 8 + 8 * rest.length
            · have d2 : decide (nbi + 8 ≤ p ∧ p < nbi + 8 + 8 * rest.length) = true := by
                apply decide_eq_true; omega
              have d3 : decide (nbi ≤ p ∧ p < nbi + 8 * (rest.length + 1)) = true := by
                apply decide_eq_true; omega
              rw [d2, d3]
            · have d2 : decide (nbi + 8 ≤ p ∧ p < nbi + 8 + 8 * rest.length) = false := by
                apply decide_eq_false; omega
              have d3 : decide (nbi ≤ p ∧ p < nbi + 8 * (rest.length + 1)) = false := by
                apply decide_eq_false; omega
              rw [d2, d3]

/-!  ## The trailing-bits write -/

theorem writeTrailing_spec {store : List Nat} {nbi tr tb : Nat}
    (htr1 : 1 ≤ tr) (htr7 : tr < 8) (htb : tb < 256)
    (hst : ∀ k, store.getD k 0 < 256)
    (hcap : bytesNeededForBits (nbi + tr) ≤ store.length) :
    ∃ st2, writeTrailing (8 - nbi % 8) tr tb store nbi = some (st2, nbi + tr) ∧
      st2.length = store.length ∧ (∀ k, st2.getD k 0 < 256) ∧
      ∀ p, listTestBit st2 p = (listTestBit store p ||
        (decide (nbi ≤ p ∧ p < nbi + tr) && tb.testBit (7 - (p - nbi)))) := by
  rw [bytesNeededForBits_eq] at hcap
  have hB : nbi / 8 < store.length := by omega
  by_cases hbc : 8 - nbi % 8 < tr
  · -- the trailing bits cross the byte boundary: two writes
    have hmin : min tr (8 - nbi % 8) = 8 - nbi % 8 := by omega
    have hB1 : nbi / 8 + 1 < store.length := by omega
    have hq1 : (nbi + (8 - nbi % 8)) / 8 = nbi / 8 + 1 := by omega
    simp only [writeTrailing, hmin, storeOr_eq_some _ hB, hq1,
      if_pos (show 0 < tr - (8 - nbi % 8) by omega)]
    rw [storeOr_eq_some _ (show nbi / 8 + 1 <
        (store.set (nbi / 8)
          (store.getD (nbi / 8) 0 |||
            (topNBits tb (8 - nbi % 8) <<< (8 - nbi % 8 - (8 - nbi % 8))) % 256)).length by
      rw [List.length_set]; exact hB1)]
    rw [show nbi + (8 - nbi % 8) + (tr - (8 - nbi % 8)) = nbi + tr from by omega]
    refine ⟨_, rfl, ?_, ?_, ?_⟩
    · rw [List.length_set, List.length_set]
    · intro k
      apply getD_lt_or_write
        (fun j => getD_lt_or_write hst (Nat.mod_lt _ (by norm_num)) j)
        (Nat.mod_lt _ (by norm_num)) k
    · intro p
      rw [listTestBit_or_write _ (by rw [List.length_set]; exact hB1) p,
        listTestBit_or_write _ hB p,
        trailingTopWrite_testBit htb (by omega) (by omega) (by omega)
          (show p % 8 < 8 by omega),
        trailingBottomWrite_testBit (show 1 ≤ 8 - nbi % 8 by omega) (by omega) (by omega)
          (show p % 8 < 8 by omega)]
      by_cases hp1 : p / 8 = nbi / 8
      · have d2 : decide (p / 8 = nbi / 8 + 1) = false := by apply decide_eq_false; omega
        rw [decide_eq_true hp1, Bool.true_and, d2, Bool.false_and, Bool.or_false]
        by_cases hro : nbi % 8 ≤ p % 8
        · have din : decide (nbi % 8 ≤ p % 8 ∧ p % 8 < nbi % 8 + (8 - nbi % 8)) = true := by
            apply decide_eq_true; omega
          have dgl : decide (nbi ≤ p ∧ p < nbi + tr) = true := by
            apply decide_eq_true; omega
          rw [din, dgl, Bool.true_and, Bool.true_and,
            show p % 8 - nbi % 8 = p - nbi by omega]
        · have din : decide (nbi % 8 ≤ p % 8 ∧ p % 8 < nbi % 8 + (8 - nbi % 8)) = false := by
            apply decide_eq_false; omega
          have dgl : decide (nbi ≤ p ∧ p < nbi + tr) = false := by
            apply decide_eq_false; omega
          rw [din, dgl, Bool.false_and, Bool.false_and, Bool.or_false]
      · rw [decide_eq_false hp1, Bool.false_and, Bool.or_false]
        by_cases hp2 : p / 8 = nbi / 8 + 1
        · rw [decide_eq_true hp2, Bool.true_and]
          by_cases hrb : p % 8 < tr - (8 - nbi % 8)
          · have din : decide (p % 8 < tr - (8 - nbi % 8)) = true := decide_eq_true hrb
            have dgl : decide (nbi ≤ p ∧ p < nbi + tr) = true := by
              apply decide_eq_true; omega
            rw [din, dgl, Bool.true_and, Bool.true_and,
              show 8 - nbi % 8 + p % 8 = p - nbi by omega]
          · have din : decide (p % 8 < tr - (8 - nbi % 8)) = false := decide_eq_false hrb
            have dgl : decide (nbi ≤ p ∧ p < nbi + tr) = false := by
              apply decide_eq_false; omega
            rw [din, dgl, Bool.false_and, Bool.false_and, Bool.or_false]
        · rw [decide_eq_false hp2, Bool.false_and, Bool.or_false,
            decide_eq_false (show ¬(nbi ≤ p ∧ p < nbi + tr) by omega),
            Bool.false_and, Bool.or_false]
  · -- the trailing bits fit in the current byte: a single write
    have hmin : min tr (8 - nbi % 8) = tr := by omega
    simp only [writeTrailing, hmin, storeOr_eq_some _ hB,
      if_neg (show ¬(0 < tr - tr) by omega)]
    refine ⟨_, rfl, by rw [List.length_set], ?_, ?_⟩
    · intro k
      exact getD_lt_or_write hst (Nat.mod_lt _ (by norm_num)) k
    · intro p
      rw [listTestBit_or_write _ hB p,
        trailingTopWrite_testBit htb (by omega) (by omega) (by omega)
          (show p % 8 < 8 by omega)]
      by_cases hp1 : p / 8 = nbi / 8
      · rw [decide_eq_true hp1, Bool.true_and]
        by_cases hro : nbi % 8 ≤ p % 8 ∧ p % 8 < nbi % 8 + tr
        · rw [decide_eq_true hro,
            decide_eq_true (show nbi ≤ p ∧ p < nbi + tr by omega),
            Bool.true_and, Bool.true_and, show p % 8 - nbi % 8 = p - nbi by omega]
        · rw [decide_eq_false hro,
            decide_eq_false (show ¬(nbi ≤ p ∧ p < nbi + tr) by omega),
            Bool.false_and, Bool.false_and, Bool.or_false]
      · rw [decide_eq_false hp1,
          decide_eq_false (show ¬(nbi ≤ p ∧ p < nbi + tr) by omega),
          Bool.false_and, Bool.false_and, Bool.or_false]

/-!  ## AppendBits: the master correctness theorem -/

theorem getD_take_lt {l : List Nat} (hl : ∀ j, l.getD j 0 < 256) (k i : Nat) :
    (l.take k).getD i 0 < 256 := by
  by_cases hik : i < k
  · rw [List.getD_eq_getElem?_getD, List.getElem?_take_of_lt hik,
      ← List.getD_eq_getElem?_getD]
    exact hl i
  · rw [getD_oob (by rw [List.length_take]; omega)]
    norm_num

theorem listTestBit_take {l : List Nat} {k j : Nat} (hj : j < 8 * k) :
    listTestBit (l.take k) j = listTestBit l j := by
  rw [listTestBit, listTestBit, List.getD_eq_getElem?_getD,
    List.getElem?_take_of_lt (by omega), ← List.getD_eq_getElem?_getD]

theorem AppendBits_ok {s : BitStream} {size : Nat} {bits : List Nat}
    (hpre : Pre s) (hbits : ∀ k, bits.getD k 0 < 256)
    (hlen : bytesNeededForBits size ≤ bits.length) :
    ∃ s', s.AppendBits size bits = .ok s' ∧
      s'.nextBitIndex = s.nextBitIndex + size ∧
      WF s' ∧
      (∀ p, s'.storeTestBit p =
        (if s.nextBitIndex ≤ p ∧ p < s.nextBitIndex + size
         then listTestBit bits (p - s.nextBitIndex)
         else s.storeTestBit p)) := by
  obtain ⟨store, hec, hcap, hst, hbitseq⟩ :=
    ensureCapacity_spec hpre (bytesNeededForBits (s.nextBitIndex + size))
  have hzt := hpre.2.1
  rw [bytesNeededForBits_eq] at hlen hcap
  have htl : (bits.take (size / 8)).length = size / 8 := by
    rw [List.length_take]; omega
  obtain ⟨st1, hwfb, hlen1, hst1, hbits1⟩ :=
    writeFullBytes_spec (bits.take (size / 8)) store s.nextBitIndex hst
      (fun k => getD_take_lt hbits _ k) (by rw [htl]; omega)
  rw [htl] at hwfb hbits1
  by_cases hsz : size % 8 = 0
  · -- no trailing bits
    have hfull : s.nextBitIndex + 8 * (size / 8) = s.nextBitIndex + size := by omega
    rw [hfull] at hwfb hbits1
    refine ⟨⟨s.nextBitIndex + size, some st1⟩, ?_, rfl, ?_, ?_⟩
    · simp only [BitStream.AppendBits,
        if_neg (show ¬(bits.length < bytesNeededForBits size) by
          rw [bytesNeededForBits_eq]; omega),
        hec, hwfb, if_neg (show ¬(size % 8 ≠ 0) by omega)]
    · refine ⟨⟨fun k => hst1 k, ?_, by simp, fun l hl => ?_⟩, fun l hl => ?_⟩
      · intro j hj
        have hj' : s.nextBitIndex + size ≤ j := hj
        show listTestBit st1 j = false
        rw [hbits1 j, decide_eq_false (by omega), Bool.false_and, Bool.or_false, hbitseq j]
        exact hzt j (by omega)
      · simp only [Option.some.injEq] at hl
        subst hl
        show 1 ≤ st1.length
        omega
      · simp only [Option.some.injEq] at hl
        subst hl
        show bytesNeededForBits (s.nextBitIndex + size) < st1.length
        rw [bytesNeededForBits_eq]
        omega
    · intro p
      show listTestBit st1 p = _
      rw [hbits1 p, hbitseq p]
      by_cases hin : s.nextBitIndex ≤ p ∧ p < s.nextBitIndex + size
      · rw [if_pos hin, decide_eq_true hin, Bool.true_and,
          listTestBit_take (by omega), hzt p (by omega), Bool.false_or]
      · rw [if_neg hin, decide_eq_false hin, Bool.false_and, Bool.or_false]
  · -- trailing bits
    have hoff : (s.nextBitIndex + 8 * (size / 8)) % 8 = s.nextBitIndex % 8 := by omega
    obtain ⟨st2, hwt, hlen2, hst2, hbits2⟩ :=
      @writeTrailing_spec st1 (s.nextBitIndex + 8 * (size / 8)) (size % 8)
        (bits.getD (size / 8) 0) (by omega) (by omega) (hbits _) hst1
        (by rw [bytesNeededForBits_eq, hlen1,
              show s.nextBitIndex + 8 * (size / 8) + size % 8 = s.nextBitIndex + size by omega]
            omega)
    rw [hoff] at hwt
    rw [show s.nextBitIndex + 8 * (size / 8) + size % 8 = s.nextBitIndex + size by omega] at hwt
    refine ⟨⟨s.nextBitIndex + size, some st2⟩, ?_, rfl, ?_, ?_⟩
    · simp only [BitStream.AppendBits,
        if_neg (show ¬(bits.length < bytesNeededForBits size) by
          rw [bytesNeededForBits_eq]; omega),
        hec, hwfb, if_pos hsz, hwt]
    · refine ⟨⟨fun k => hst2 k, ?_, by simp, fun l hl => ?_⟩, fun l hl => ?_⟩
      · intro j hj
        have hj' : s.nextBitIndex + size ≤ j := hj
        show listTestBit st2 j = false
        rw [hbits2 j, decide_eq_false (by omega), Bool.false_and, Bool.or_false,
          hbits1 j, decide_eq_false (by omega), Bool.false_and, Bool.or_false, hbitseq j]
        exact hzt j (by omega)
      · simp only [Option.some.injEq] at hl
        subst hl
        show 1 ≤ st2.length
        omega
      · simp only [Option.some.injEq] at hl
        subst hl
        show bytesNeededForBits (s.nextBitIndex + size) < st2.length
        rw [bytesNeededForBits_eq]
        omega
    · intro p
      show listTestBit st2 p = _
      rw [hbits2 p, hbits1 p, hbitseq p]
      by_cases hr1 : p < s.nextBitIndex
      · rw [if_neg (by omega), decide_eq_false (by omega), decide_eq_false (by omega),
          Bool.false_and, Bool.false_and, Bool.or_false, Bool.or_false]
      · by_cases hr2 : p < s.nextBitIndex + 8 * (size / 8)
        · rw [if_pos (by omega), decide_eq_true (show s.nextBitIndex ≤ p ∧
              p < s.nextBitIndex + 8 * (size / 8) by omega),
            decide_eq_false (by omega), Bool.true_and, Bool.false_and, Bool.or_false,
            listTestBit_take (by omega), hzt p (by omega), Bool.false_or]
        · by_cases hr3 : p < s.nextBitIndex + size
          · rw [if_pos (by omega),
              decide_eq_true (show s.nextBitIndex + 8 * (size / 8) ≤ p ∧
                p < s.nextBitIndex + 8 * (size / 8) + size % 8 by omega),
              decide_eq_false (by omega), Bool.true_and, Bool.false_and, Bool.or_false,
              hzt p (by omega), Bool.false_or]
            rw [listTestBit,
              show (p - s.nextBitIndex) / 8 = size / 8 by omega,
              show 7 - (p - s.nextBitIndex) % 8
                = 7 - (p - (s.nextBitIndex + 8 * (size / 8))) by omega]
          · rw [if_neg (by omega), decide_eq_false (by omega), decide_eq_false (by omega),
              Bool.false_and, Bool.false_and, Bool.or_false, Bool.or_false]

/-!  ## Readers: BitAt and BitsAt -/

theorem BitAt_spec {s : BitStream} (hwf : WF s) {index : Nat}
    (hidx : index < s.nextBitIndex) :
    s.BitAt index = some (if s.storeTestBit index then 1 else 0) := by
  obtain ⟨⟨hbytes, hzt, hnil, hpos⟩, hcap⟩ := hwf
  match hbs : s.backingStore with
  | none =>
      have := hnil hbs
      omega
  | some l =>
      have hc := hcap l hbs
      rw [bytesNeededForBits_eq] at hc
      have hbi : index / 8 < l.length := by omega
      simp only [BitStream.BitAt, ge_iff_le, hbs]
      rw [if_neg (by omega), if_pos hbi]
      rw [BitStream.storeTestBit, BitStream.storeBytes, hbs]
      show some _ = _
      congr 1
      rw [Nat.and_one_is_mod, listTestBit, Option.getD_some, Nat.testBit_to_div_mod,
        Nat.shiftRight_eq_div_pow]
      generalize l.getD (index / 8) 0 / 2 ^ (7 - index % 8) = x
      rcases Nat.mod_two_eq_zero_or_one x with h | h <;> rw [h] <;> norm_num

theorem bit_shift_testBit {bit m k : Nat} (hb : bit ≤ 1) (hk : k ≤ 7) :
    (bit <<< m).testBit k = (decide (k = m) && decide (bit = 1)) := by
  rw [Nat.testBit_shiftLeft]
  by_cases hkm : k = m
  · subst hkm
    rw [decide_eq_true (Nat.le_refl k), Bool.true_and, Nat.sub_self, decide_eq_true rfl,
      Bool.true_and, Nat.testBit_zero]
    interval_cases bit <;> simp
  · rw [decide_eq_false hkm]
    by_cases hmk : m ≤ k
    · rw [decide_eq_true hmk, Bool.true_and, Bool.false_and]
      exact Nat.testBit_lt_two_pow (by
        have : 1 ≤ k - m := by omega
        calc bit < 2 := by omega
          _ = 2 ^ 1 := by norm_num
          _ ≤ 2 ^ (k - m) := Nat.pow_le_pow_right (by omega) this)
    · rw [decide_eq_false (by omega), Bool.false_and, Bool.false_and]

theorem bitsAtLoop_spec {s : BitStream} (hwf : WF s) (index size : Nat)
    (hidx : index + size ≤ s.nextBitIndex) :
    ∀ (remaining i : Nat) (result : List Nat) (byteIndex : Nat) (shift : Int),
      i + remaining = size →
      (if 0 < i ∧ i % 8 = 0 then shift = -1 ∧ byteIndex + 1 = i / 8
       else shift = 7 - (i % 8 : Int) ∧ byteIndex = i / 8) →
      result.length = bytesNeededForBits size →
      (∀ k, result.getD k 0 < 256) →
      (∀ p, i ≤ p → listTestBit result p = false) →
      ∃ l, bitsAtLoop s index i result byteIndex shift remaining = some l ∧
        l.length = result.length ∧ (∀ k, l.getD k 0 < 256) ∧
        (∀ p, p < i → listTestBit l p = listTestBit result p) ∧
        (∀ j, i ≤ j → j < size → listTestBit l j = s.storeTestBit (index + j)) ∧
        (∀ j, size ≤ j → listTestBit l j = false) := by
  intro remaining
  induction remaining with
  | zero =>
      intro i result byteIndex shift hi _ hrl hrb hzero
      refine ⟨result, rfl, rfl, hrb, fun p _ => rfl, fun j hj1 hj2 => by omega,
        fun j hj => hzero j (by omega)⟩
  | succ remaining ih =>
      intro i result byteIndex shift hi hinv hrl hrb hzero
      have hisize : i < size := by omega
      have hilt : index + i < s.nextBitIndex := by omega
      -- the effective byte index and shift after the reset check
      have hby' : (if shift < 0 then byteIndex + 1 else byteIndex) = i / 8 := by
        by_cases h0 : 0 < i ∧ i % 8 = 0
        · rw [if_pos h0] at hinv
          rw [if_pos (by omega : shift < 0)]
          omega
        · rw [if_neg h0] at hinv
          rw [if_neg (by omega : ¬shift < 0)]
          exact hinv.2
      have hsh' : (if shift < 0 then (7 : Int) else shift) = 7 - (i % 8 : Int) := by
        by_cases h0 : 0 < i ∧ i % 8 = 0
        · rw [if_pos h0] at hinv
          rw [if_pos (by omega : shift < 0)]
          omega
        · rw [if_neg h0] at hinv
          rw [if_neg (by omega : ¬shift < 0)]
          omega
      have htn : (7 - (i % 8 : Int)).toNat = 7 - i % 8 := by omega
      have hbi : i / 8 < result.length := by
        rw [hrl, bytesNeededForBits_eq]
        omega
      have hbit1 : (if s.storeTestBit (index + i) then 1 else 0 : Nat) ≤ 1 := by
        split <;> omega
      simp only [bitsAtLoop, hby', hsh', BitAt_spec hwf hilt, htn,
        storeOr_eq_some _ hbi]
      -- the updated buffer
      set w := ((if s.storeTestBit (index + i) then 1 else 0 : Nat) <<< (7 - i % 8)) with hw
      have hw256 : w < 256 := by
        rw [hw, Nat.shiftLeft_eq]
        calc (if s.storeTestBit (index + i) then 1 else 0 : Nat) * 2 ^ (7 - i % 8)
            ≤ 1 * 2 ^ (7 - i % 8) := Nat.mul_le_mul_right _ hbit1
          _ ≤ 2 ^ 7 := by
              rw [Nat.one_mul]
              exact Nat.pow_le_pow_right (by omega) (by omega)
          _ < 256 := by norm_num
      have hres' : ∀ p, listTestBit (result.set (i / 8) (result.getD (i / 8) 0 ||| w)) p
          = (listTestBit result p ||
              (decide (p = i) && decide (s.storeTestBit (index + i) = true))) := by
        intro p
        rw [listTestBit_or_write _ hbi p, hw,
          bit_shift_testBit hbit1 (show 7 - p % 8 ≤ 7 by omega)]
        by_cases hpi : p = i
        · subst hpi
          simp only [decide_eq_true (show p / 8 = p / 8 from rfl),
            decide_eq_true (show p = p from rfl),
            decide_eq_true (show (7 : Nat) - p % 8 = 7 - p % 8 from rfl), Bool.true_and]
          rcases Bool.eq_false_or_eq_true (s.storeTestBit (index + p)) with h | h <;>
            rw [h] <;> simp
        · by_cases hq : p / 8 = i / 8
          · simp only [decide_eq_true hq,
              decide_eq_false (show ¬((7 : Nat) - p % 8 = 7 - i % 8) by omega),
              decide_eq_false hpi, Bool.true_and, Bool.false_and, Bool.and_false,
              Bool.or_false]
          · simp only [decide_eq_false hq, decide_eq_false hpi, Bool.false_and,
              Bool.or_false]
      obtain ⟨l, hl, hllen, hlb, hlpre, hlmid, hlpost⟩ :=
        ih (i + 1) (result.set (i / 8) (result.getD (i / 8) 0 ||| w)) (i / 8)
          (7 - (i % 8 : Int) - 1)
          (by omega)
          (by
            by_cases h8 : (i + 1) % 8 = 0
            · rw [if_pos ⟨by omega, h8⟩]
              constructor <;> omega
            · rw [if_neg (by omega)]
              constructor <;> omega)
          (by rw [List.length_set, hrl])
          (fun k => getD_lt_or_write hrb hw256 k)
          (by
            intro p hp
            rw [hres' p, hzero p (by omega), decide_eq_false (show ¬p = i by omega),
              Bool.false_and, Bool.or_false])
      refine ⟨l, hl, by rw [hllen, List.length_set], hlb, ?_, ?_, hlpost⟩
      · intro p hp
        rw [hlpre p (by omega), hres' p, decide_eq_false (show ¬p = i by omega),
          Bool.false_and, Bool.or_false]
      · intro j hj1 hj2
        by_cases hji : j = i
        · subst hji
          rw [hlpre j (by omega), hres' j, hzero j (by omega), decide_eq_true rfl,
            Bool.true_and, Bool.false_or]
          rcases Bool.eq_false_or_eq_true (s.storeTestBit (index + j)) with h | h <;>
            simp [h]
        · exact hlmid j (by omega) hj2

theorem BitsAt_spec {s : BitStream} (hwf : WF s) {index size : Nat}
    (hidx : index + size ≤ s.nextBitIndex) :
    ∃ l, s.BitsAt index size = some l ∧
      l.length = bytesNeededForBits size ∧ (∀ k, l.getD k 0 < 256) ∧
      (∀ j, j < size → listTestBit l j = s.storeTestBit (index + j)) ∧
      (∀ j, size ≤ j → listTestBit l j = false) := by
  obtain ⟨l, hl, hllen, hlb, _, hlmid, hlpost⟩ :=
    bitsAtLoop_spec hwf index size hidx size 0 (List.replicate (bytesNeededForBits size) 0)
      0 7 (by omega)
      (by rw [if_neg (by omega)]; norm_num)
      (by rw [List.length_replicate])
      (by
        intro k
        by_cases hk : k < bytesNeededForBits size
        · rw [List.getD_eq_getElem?_getD, List.getElem?_replicate_of_lt hk]
          norm_num
        · rw [getD_oob (by rw [List.length_replicate]; omega)]
          norm_num)
      (by
        intro p _
        rw [listTestBit]
        by_cases hp : p / 8 < bytesNeededForBits size
        · rw [List.getD_eq_getElem?_getD, List.getElem?_replicate_of_lt hp]
          simp
        · rw [getD_oob (by rw [List.length_replicate]; omega), Nat.zero_testBit])
  refine ⟨l, ?_, by rw [hllen, List.length_replicate], hlb,
    fun j hj => hlmid j (by omega) hj, hlpost⟩
  rw [BitStream.BitsAt, if_neg (by omega)]
  exact hl

/-!  ## Numeric conversions: big-endian bytes vs. bit values -/

theorem lor_shl {x : Nat} (b m : Nat) (hx : x < 2 ^ m) :
    (x ||| b <<< m) = b * 2 ^ m + x := by
  calc x ||| b <<< m = 2 ^ m * b ||| x := by
        rw [Nat.shiftLeft_eq, Nat.lor_comm, Nat.mul_comm]
    _ = 2 ^ m * b + x := (Nat.mul_add_lt_is_or hx b).symm
    _ = b * 2 ^ m + x := by ring

/-- A byte seen as the value of its eight MSB-first bits. -/
theorem byte_bitsVal {b : Nat} (hb : b < 256) :
    bitsVal (fun j => b.testBit (7 - j)) 8 = b := by
  calc bitsVal (fun j => b.testBit (7 - j)) 8
      = bitsVal (fun j => b.testBit (8 - 1 - j)) 8 :=
        bitsVal_congr 8 (fun j hj => by rw [show 7 - j = 8 - 1 - j by omega])
    _ = b := bitsVal_recover (n := 8) (v := b) (by omega)

theorem beUint64_eq_sum {l : List Nat} (hb : ∀ k, l.getD k 0 < 256) :
    beUint64 l = l.getD 0 0 * 2 ^ 56 + l.getD 1 0 * 2 ^ 48 + l.getD 2 0 * 2 ^ 40 +
      l.getD 3 0 * 2 ^ 32 + l.getD 4 0 * 2 ^ 24 + l.getD 5 0 * 2 ^ 16 +
      l.getD 6 0 * 2 ^ 8 + l.getD 7 0 := by
  have q0 := hb 0
  have q1 := hb 1
  have q2 := hb 2
  have q3 := hb 3
  have q4 := hb 4
  have q5 := hb 5
  have q6 := hb 6
  have q7 := hb 7
  rw [beUint64, lor_shl (l.getD 6 0) 8 (by omega),
    lor_shl (l.getD 5 0) 16 (by omega),
    lor_shl (l.getD 4 0) 24 (by omega),
    lor_shl (l.getD 3 0) 32 (by omega),
    lor_shl (l.getD 2 0) 40 (by omega),
    lor_shl (l.getD 1 0) 48 (by omega),
    lor_shl (l.getD 0 0) 56 (by omega)]
  ring

theorem beUint64_eq_bitsVal {l : List Nat} (hb : ∀ k, l.getD k 0 < 256) :
    beUint64 l = bitsVal (listTestBit l) 64 := by
  have step : ∀ i : Nat, bitsVal (listTestBit l) (8 * i + 8)
      = bitsVal (listTestBit l) (8 * i) * 2 ^ 8 + l.getD i 0 := by
    intro i
    rw [bitsVal_split]
    congr 1
    rw [← byte_bitsVal (hb i)]
    exact bitsVal_congr 8 (fun j hj => by
      rw [listTestBit, show (8 * i + j) / 8 = i by omega,
        show (8 * i + j) % 8 = j by omega])
  rw [beUint64_eq_sum hb, show (64 : Nat) = 8 * 7 + 8 by norm_num, step 7,
    show 8 * 7 = 8 * 6 + 8 by norm_num, step 6,
    show 8 * 6 = 8 * 5 + 8 by norm_num, step 5,
    show 8 * 5 = 8 * 4 + 8 by norm_num, step 4,
    show 8 * 4 = 8 * 3 + 8 by norm_num, step 3,
    show 8 * 3 = 8 * 2 + 8 by norm_num, step 2,
    show 8 * 2 = 8 * 1 + 8 by norm_num, step 1,
    show 8 * 1 = 8 * 0 + 8 by norm_num, step 0,
    show 8 * 0 = 0 by norm_num]
  show _ = ((((((((bitsVal (listTestBit l) 0 * 2 ^ 8 + l.getD 0 0) * 2 ^ 8 + l.getD 1 0) *
    2 ^ 8 + l.getD 2 0) * 2 ^ 8 + l.getD 3 0) * 2 ^ 8 + l.getD 4 0) * 2 ^ 8 + l.getD 5 0) *
    2 ^ 8 + l.getD 6 0) * 2 ^ 8 + l.getD 7 0)
  rw [show bitsVal (listTestBit l) 0 = 0 from rfl]
  ring

theorem putUint64BE_getD_lt (v k : Nat) : (putUint64BE v).getD k 0 < 256 := by
  match k with
  | 0 => exact Nat.mod_lt _ (by norm_num)
  | 1 => exact Nat.mod_lt _ (by norm_num)
  | 2 => exact Nat.mod_lt _ (by norm_num)
  | 3 => exact Nat.mod_lt _ (by norm_num)
  | 4 => exact Nat.mod_lt _ (by norm_num)
  | 5 => exact Nat.mod_lt _ (by norm_num)
  | 6 => exact Nat.mod_lt _ (by norm_num)
  | 7 => exact Nat.mod_lt _ (by norm_num)
  | n + 8 =>
      rw [getD_oob (by rw [show (putUint64BE v).length = 8 from rfl]; omega)]
      norm_num

theorem putUint64BE_listTestBit (v : Nat) {j : Nat} (hj : j < 64) :
    listTestBit (putUint64BE v) j = v.testBit (63 - j) := by
  have h8 : (256 : Nat) = 2 ^ 8 := by norm_num
  have hq : j / 8 = 0 ∨ j / 8 = 1 ∨ j / 8 = 2 ∨ j / 8 = 3 ∨ j / 8 = 4 ∨ j / 8 = 5 ∨
      j / 8 = 6 ∨ j / 8 = 7 := by omega
  rw [listTestBit]
  rcases hq with h | h | h | h | h | h | h | h <;>
    rw [h] <;>
    simp only [putUint64BE, List.getD_cons_zero, List.getD_cons_succ] <;>
    rw [h8, Nat.testBit_mod_two_pow] <;>
    first
      | (rw [Nat.testBit_shiftRight, decide_eq_true (show 7 - j % 8 < 8 by omega),
          Bool.true_and]; congr 1; omega)
      | (rw [decide_eq_true (show 7 - j % 8 < 8 by omega), Bool.true_and]; congr 1; omega)

theorem fillBytes_getD_lt (v len k : Nat) : (fillBytes v len).getD k 0 < 256 := by
  by_cases hk : k < len
  · rw [fillBytes, List.getD_eq_getElem?_getD, List.getElem?_map, List.getElem?_range hk]
    exact Nat.mod_lt _ (by norm_num)
  · rw [getD_oob (by rw [fillBytes, List.length_map, List.length_range]; omega)]
    norm_num

theorem fillBytes_length (v len : Nat) : (fillBytes v len).length = len := by
  rw [fillBytes, List.length_map, List.length_range]

theorem fillBytes_listTestBit (v : Nat) {len j : Nat} (hj : j < 8 * len) :
    listTestBit (fillBytes v len) j = v.testBit (8 * len - 1 - j) := by
  rw [listTestBit, fillBytes, List.getD_eq_getElem?_getD, List.getElem?_map,
    List.getElem?_range (show j / 8 < len by omega)]
  show ((v >>> (8 * (len - 1 - j / 8))) % 256).testBit (7 - j % 8) = _
  rw [show (256 : Nat) = 2 ^ 8 by norm_num, Nat.testBit_mod_two_pow,
    Nat.testBit_shiftRight, decide_eq_true (show 7 - j % 8 < 8 by omega), Bool.true_and]
  congr 1
  omega

theorem beBytesToNat_append (l : List Nat) (b : Nat) :
    beBytesToNat (l ++ [b]) = beBytesToNat l * 256 + b := by
  rw [beBytesToNat, beBytesToNat, List.foldl_append]
  rfl

theorem beBytesToNat_eq_bitsVal {l : List Nat} (hb : ∀ k, l.getD k 0 < 256) :
    beBytesToNat l = bitsVal (listTestBit l) (8 * l.length) := by
  induction l using List.reverseRecOn with
  | nil => rfl
  | append_singleton l b ih =>
      have hbl : ∀ k, l.getD k 0 < 256 := by
        intro k
        by_cases hk : k < l.length
        · have := hb k
          rwa [List.getD_eq_getElem?_getD, List.getElem?_append_left hk,
            ← List.getD_eq_getElem?_getD] at this
        · rw [getD_oob (by omega)]
          norm_num
      have hbb : b < 256 := by
        have := hb l.length
        rwa [List.getD_eq_getElem?_getD, List.getElem?_append_right (Nat.le_refl _),
          Nat.sub_self, List.getElem?_cons_zero, Option.getD_some] at this
      rw [beBytesToNat_append, ih hbl, List.length_append, List.length_cons,
        List.length_nil, show 8 * (l.length + (0 + 1)) = 8 * l.length + 8 by ring,
        bitsVal_split, show (256 : Nat) = 2 ^ 8 by norm_num]
      congr 1
      · congr 1
        exact bitsVal_congr _ (fun j hj => by
          have he : (l ++ [b]).getD (j / 8) 0 = l.getD (j / 8) 0 := by
            rw [List.getD_eq_getElem?_getD,
              List.getElem?_append_left (show j / 8 < l.length by omega),
              ← List.getD_eq_getElem?_getD]
          rw [listTestBit, listTestBit, he])
      · calc b = bitsVal (fun j => b.testBit (7 - j)) 8 := (byte_bitsVal hbb).symm
          _ = bitsVal (fun j => listTestBit (l ++ [b]) (8 * l.length + j)) 8 :=
            bitsVal_congr 8 (fun j hj => by
              rw [listTestBit, List.getD_eq_getElem?_getD,
                show (8 * l.length + j) / 8 = l.length by omega,
                List.getElem?_append_right (Nat.le_refl _), Nat.sub_self,
                List.getElem?_cons_zero, Option.getD_some,
                show (8 * l.length + j) % 8 = j by omega])

/-!  ## AppendUint and UintAt -/

theorem AppendUint_spec {s : BitStream} (hpre : Pre s) {v size : Nat}
    (hs : size ≤ 64) (hv : v < 2 ^ size) :
    ∃ s', s.AppendUint v size = .ok s' ∧
      s'.nextBitIndex = s.nextBitIndex + size ∧ WF s' ∧
      (∀ p, s'.storeTestBit p =
        (if s.nextBitIndex ≤ p ∧ p < s.nextBitIndex + size
         then v.testBit (size - 1 - (p - s.nextBitIndex))
         else s.storeTestBit p)) := by
  have hshift : (v <<< (64 - size)) % 2 ^ 64 = v <<< (64 - size) := by
    apply Nat.mod_eq_of_lt
    rw [Nat.shiftLeft_eq]
    calc v * 2 ^ (64 - size) < 2 ^ size * 2 ^ (64 - size) :=
          (Nat.mul_lt_mul_right (Nat.two_pow_pos _)).mpr hv
      _ = 2 ^ 64 := by
          rw [← Nat.pow_add]
          congr 1
          omega
  have hmask : v &&& ((1 <<< size) - 1) = v := by
    rw [Nat.one_shiftLeft, Nat.and_pow_two_sub_one_eq_mod, Nat.mod_eq_of_lt hv]
  obtain ⟨s', hok, hsz, hwf, hbits⟩ :=
    @AppendBits_ok s size (putUint64BE ((v <<< (64 - size)) % 2 ^ 64))
      hpre (fun k => putUint64BE_getD_lt _ k)
      (by
        rw [show (putUint64BE ((v <<< (64 - size)) % 2 ^ 64)).length = 8 from rfl,
          bytesNeededForBits_eq]
        omega)
  refine ⟨s', ?_, hsz, hwf, ?_⟩
  · simp only [BitStream.AppendUint]
    rw [if_neg (show ¬size > 64 by omega),
      if_neg (show ¬(v &&& ((1 <<< size) - 1) ≠ v) from fun h => h hmask)]
    exact hok
  · intro p
    rw [hbits p]
    by_cases hin : s.nextBitIndex ≤ p ∧ p < s.nextBitIndex + size
    · rw [if_pos hin, if_pos hin,
        putUint64BE_listTestBit _ (show p - s.nextBitIndex < 64 by omega),
        hshift, Nat.testBit_shiftLeft,
        decide_eq_true (show 64 - size ≤ 63 - (p - s.nextBitIndex) by omega),
        Bool.true_and]
      congr 1
      omega
    · rw [if_neg hin, if_neg hin]

theorem UintAt_spec {s : BitStream} (hwf : WF s) {index size : Nat}
    (hs : size ≤ 64) (hidx : index + size ≤ s.nextBitIndex) :
    s.UintAt index size = some (bitsVal (fun j => s.storeTestBit (index + j)) size) := by
  obtain ⟨data, hdata, hdlen, hdb, hdmid, hdpost⟩ := BitsAt_spec hwf hidx
  have hbuf : ∀ k, (goCopy (List.replicate 8 0) data).getD k 0 < 256 := by
    intro k
    rw [goCopyZ_getD]
    split
    · exact hdb k
    · norm_num
  simp only [BitStream.UintAt, if_neg (show ¬size > 64 by omega), hdata]
  congr 1
  have e : bitsVal (listTestBit (goCopy (List.replicate 8 0) data)) 64
      = bitsVal (listTestBit (goCopy (List.replicate 8 0) data)) (size + (64 - size)) := by
    congr 1
    omega
  rw [beUint64_eq_bitsVal hbuf, e, bitsVal_shiftRight]
  exact bitsVal_congr size (fun j hj => by
    rw [goCopyZ_listTestBit, if_pos (show j < 8 * 8 by omega), hdmid j hj])

/-- The uint round trip at the bit level: reading back `size` bits that hold
`v` MSB-first recovers `v`. -/
theorem bitsVal_roundTrip {v size : Nat} (hv : v < 2 ^ size) :
    bitsVal (fun j => v.testBit (size - 1 - j)) size = v :=
  bitsVal_recover hv

/-!  ## Small helpers for concrete instances -/

/-- The zero value `BitStream{}` is well formed. -/
theorem WF_empty : WF ⟨0, none⟩ := by
  refine ⟨⟨?_, ?_, fun _ => rfl, fun l hl => by cases hl⟩, fun l hl => by cases hl⟩
  · intro i
    rw [BitStream.storeBytes, Option.getD_none, getD_oob (by simp)]
    norm_num
  · intro j _
    rw [BitStream.storeTestBit, BitStream.storeBytes, Option.getD_none,
      listTestBit_oob (by simp)]

theorem bytesLT_of_all {l : List Nat} (h : ∀ b ∈ l, b < 256) : ∀ k, l.getD k 0 < 256 := by
  intro k
  by_cases hk : k < l.length
  · rw [List.getD_eq_getElem?_getD, List.getElem?_eq_getElem hk, Option.getD_some]
    exact h _ (List.getElem_mem hk)
  · rw [getD_oob (by omega)]
    norm_num

/-!  ## Claim theorems -/

/-- C1: a precondition-satisfying `AppendBits(size, bits)` call on a
well-formed stream succeeds, preserves every previously stored bit, stores
exactly the first `size` MSB-first bits of `bits` at the old end of the
stream, and advances the length by exactly `size` — at every bit offset and
for every `size`, byte-aligned or not. -/
theorem C1_appendBits_appends_bits (s : BitStream) (hwf : WF s) (size : Nat)
    (bits : List Nat) (hbytes : ∀ k, bits.getD k 0 < 256)
    (hlen : bytesNeededForBits size ≤ bits.length) :
    ∃ s', s.AppendBits size bits = .ok s' ∧
      s'.Size = s.Size + size ∧
      (∀ j, j < s.Size → s'.BitAt j = s.BitAt j) ∧
      (∀ j, j < size → s'.BitAt (s.Size + j) = some (if listTestBit bits j then 1 else 0)) := by
  have hS : s.Size = s.nextBitIndex := rfl
  obtain ⟨s', hok, hsz, hwf', hbits⟩ := AppendBits_ok hwf.1 hbytes hlen
  have hS' : s'.Size = s'.nextBitIndex := rfl
  refine ⟨s', hok, by rw [hS, hS', hsz], ?_, ?_⟩
  · intro j hj
    rw [BitAt_spec hwf' (show j < s'.nextBitIndex by omega),
      BitAt_spec hwf (show j < s.nextBitIndex by omega), hbits j,
      if_neg (show ¬(s.nextBitIndex ≤ j ∧ j < s.nextBitIndex + size) by omega)]
  · intro j hj
    rw [BitAt_spec hwf' (show s.Size + j < s'.nextBitIndex by omega),
      hbits (s.Size + j),
      if_pos (show s.nextBitIndex ≤ s.Size + j ∧ s.Size + j < s.nextBitIndex + size by omega),
      show s.Size + j - s.nextBitIndex = j by omega]

/-- C1 witness: appending 12 bits `0xAB 0xC0` to the empty stream. -/
theorem C1_witness :
    ∃ s', BitStream.AppendBits ⟨0, none⟩ 12 [171, 192] = .ok s' ∧
      s'.Size = BitStream.Size ⟨0, none⟩ + 12 ∧
      (∀ j, j < BitStream.Size ⟨0, none⟩ → s'.BitAt j = BitStream.BitAt ⟨0, none⟩ j) ∧
      (∀ j, j < 12 → s'.BitAt (BitStream.Size ⟨0, none⟩ + j)
        = some (if listTestBit [171, 192] j then 1 else 0)) :=
  C1_appendBits_appends_bits ⟨0, none⟩ WF_empty 12 [171, 192]
    (bytesLT_of_all (by decide)) (by decide)

/-- C2: for every `size ≤ 64`, every `v < 2^size` and every well-formed
stream, `AppendUint(v, size)` succeeds and `UintAt` at the old length reads
back exactly `v`. -/
theorem C2_uint_roundTrip (st : BitStream) (hwf : WF st) (s v : Nat)
    (hs : s ≤ 64) (hv : v < 2 ^ s) :
    ∃ st', st.AppendUint v s = .ok st' ∧ st'.UintAt st.Size s = some v := by
  have hS : st.Size = st.nextBitIndex := rfl
  obtain ⟨st', hok, hsz, hwf', hbits⟩ := AppendUint_spec hwf.1 hs hv
  refine ⟨st', hok, ?_⟩
  rw [UintAt_spec hwf' hs (by omega)]
  congr 1
  calc bitsVal (fun j => st'.storeTestBit (st.Size + j)) s
      = bitsVal (fun j => v.testBit (s - 1 - j)) s :=
        bitsVal_congr s (fun j hj => by
          rw [hbits (st.Size + j), if_pos (by omega),
            show st.Size + j - st.nextBitIndex = j by omega])
    _ = v := bitsVal_recover hv

/-- C2 witness: `AppendUint 19 5` on the empty stream, read back at index 0. -/
theorem C2_witness :
    ∃ st', BitStream.AppendUint ⟨0, none⟩ 19 5 = .ok st' ∧
      st'.UintAt (BitStream.Size ⟨0, none⟩) 5 = some 19 :=
  C2_uint_roundTrip ⟨0, none⟩ WF_empty 5 19 (by decide) (by decide)

/-- C5 (code bug): the backing-store growth loop never makes progress when it
starts from a zero-length (but non-nil) store, and `Concat` of two empty
streams creates exactly that state — `make([]byte, 0)` is non-nil with
length 0, so `AppendBits` enters the doubling loop at `nextSize = 0` and
`0 * 2 = 0` loops forever.  The first conjunct shows the loop diverges at
every fuel; the second evaluates `Concat` on the failing input to the
divergence outcome. -/
theorem C5_concat_empty_diverges :
    (∀ fuel n, growLoop fuel 0 n = none) ∧
    BitStream.Concat ⟨0, none⟩ ⟨0, none⟩ = .timeout :=
  ⟨growLoop_zero_diverges, by decide⟩

/-- C6: every contract violation in the API is signalled at the point of
violation (the Go `panic`, or `none` for a read), and the stream state at
the moment of the panic is exactly the state before the call — the checks
precede every mutation. -/
theorem C6_contract_violations :
    (∀ (s : BitStream) (size : Nat) (bits : List Nat),
      bits.length < bytesNeededForBits size → s.AppendBits size bits = .panic s) ∧
    (∀ (s : BitStream) (v size : Nat), 64 < size → s.AppendUint v size = .panic s) ∧
    (∀ (s : BitStream) (v size : Nat), size ≤ 64 → 2 ^ size ≤ v →
      s.AppendUint v size = .panic s) ∧
    (∀ (s : BitStream) (index size : Nat), 64 < size → s.UintAt index size = none) ∧
    (∀ (s : BitStream) (index : Nat), s.Size ≤ index → s.BitAt index = none) ∧
    (∀ (s : BitStream) (index size : Nat), s.Size < index + size →
      s.BitsAt index size = none) ∧
    (∀ (s : BitStream) (bit : Nat), bit ≠ 0 → bit ≠ 1 → s.AppendBit bit = .panic s) ∧
    (∀ (s : BitStream) (v nbits : Nat), nbits < bitLen v →
      s.AppendBigInt v nbits = .panic s) ∧
    (∀ s : BitStream, s.Size % 5 ≠ 0 → s.MarshalBase32 = none) := by
  refine ⟨?_, ?_, ?_, ?_, ?_, ?_, ?_, ?_, ?_⟩
  · intro s size bits h
    simp only [BitStream.AppendBits, if_pos h]
  · intro s v size h
    simp only [BitStream.AppendUint, if_pos (show size > 64 from h)]
  · intro s v size hs hv
    have hm : v &&& ((1 <<< size) - 1) ≠ v := by
      rw [Nat.one_shiftLeft, Nat.and_pow_two_sub_one_eq_mod]
      have : v % 2 ^ size < 2 ^ size := Nat.mod_lt _ (Nat.two_pow_pos _)
      omega
    simp only [BitStream.AppendUint]
    rw [if_neg (show ¬size > 64 by omega), if_pos hm]
  · intro s index size h
    simp only [BitStream.UintAt, if_pos (show size > 64 from h)]
  · intro s index h
    simp only [BitStream.BitAt, if_pos (show index ≥ s.nextBitIndex from h)]
  · intro s index size h
    simp only [BitStream.BitsAt, if_pos (show index + size > s.nextBitIndex from h)]
  · intro s bit h0 h1
    simp only [BitStream.AppendBit]
    rw [if_pos (⟨h0, h1⟩ : bit ≠ 0 ∧ bit ≠ 1)]
  · intro s v nbits h
    simp only [BitStream.AppendBigInt, if_pos (show bitLen v > nbits from h)]
  · intro s h
    simp only [BitStream.MarshalBase32, if_pos h]

/-- C6 witness: one concrete violation per listed operation. -/
theorem C6_witness :
    BitStream.AppendBits ⟨0, none⟩ 9 [255] = .panic ⟨0, none⟩ ∧
    BitStream.AppendUint ⟨0, none⟩ 0 65 = .panic ⟨0, none⟩ ∧
    BitStream.AppendUint ⟨0, none⟩ 4 2 = .panic ⟨0, none⟩ ∧
    BitStream.UintAt ⟨0, none⟩ 0 65 = none ∧
    BitStream.BitAt ⟨0, none⟩ 0 = none ∧
    BitStream.BitsAt ⟨0, none⟩ 0 1 = none ∧
    BitStream.AppendBit ⟨0, none⟩ 2 = .panic ⟨0, none⟩ ∧
    BitStream.AppendBigInt ⟨0, none⟩ 7 2 = .panic ⟨0, none⟩ ∧
    BitStream.MarshalBase32 ⟨3, none⟩ = none :=
  ⟨C6_contract_violations.1 ⟨0, none⟩ 9 [255] (by decide),
    C6_contract_violations.2.1 ⟨0, none⟩ 0 65 (by decide),
    C6_contract_violations.2.2.1 ⟨0, none⟩ 4 2 (by decide) (by decide),
    C6_contract_violations.2.2.2.1 ⟨0, none⟩ 0 65 (by decide),
    C6_contract_violations.2.2.2.2.1 ⟨0, none⟩ 0 (by decide),
    C6_contract_violations.2.2.2.2.2.1 ⟨0, none⟩ 0 1 (by decide),
    C6_contract_violations.2.2.2.2.2.2.1 ⟨0, none⟩ 2 (by decide) (by decide),
    C6_contract_violations.2.2.2.2.2.2.2.1 ⟨0, none⟩ 7 2 (by simp [bitLen, Nat.log2]),
    C6_contract_violations.2.2.2.2.2.2.2.2 ⟨3, none⟩ (by decide)⟩

/-- C7: the well-formedness invariant `WF` — which contains the strict
capacity margin `bytesNeededForBits Size < store length` for every allocated
store — holds for the empty stream and is preserved by every
precondition-satisfying `AppendBits`, and such a call returns `ok`: in this
model every backing-store access is bounds-checked (an out-of-range index
would surface as `panic`), so `ok` means every access, including the
unconditional write to `nextByteIndex + 1` in the full-byte loop at offset
0, is in bounds. -/
theorem C7_capacity_margin :
    WF ⟨0, none⟩ ∧
    (∀ (s : BitStream) (size : Nat) (bits : List Nat), WF s →
      (∀ k, bits.getD k 0 < 256) → bytesNeededForBits size ≤ bits.length →
      ∃ s', s.AppendBits size bits = .ok s' ∧ WF s' ∧
        ∀ l, s'.backingStore = some l → bytesNeededForBits s'.Size < l.length) := by
  refine ⟨WF_empty, ?_⟩
  intro s size bits hwf hbytes hlen
  obtain ⟨s', hok, _, hwf', _⟩ := AppendBits_ok hwf.1 hbytes hlen
  exact ⟨s', hok, hwf', hwf'.2⟩

/-- C7 witness: an append of one full byte at offset 0 into the empty
stream (the case that writes the unconditional `nextByteIndex + 1`). -/
theorem C7_witness :
    WF ⟨0, none⟩ ∧
    (∃ s', BitStream.AppendBits ⟨0, none⟩ 8 [165] = .ok s' ∧ WF s' ∧
      ∀ l, s'.backingStore = some l → bytesNeededForBits s'.Size < l.length) :=
  ⟨C7_capacity_margin.1,
    C7_capacity_margin.2 ⟨0, none⟩ 8 [165] WF_empty (bytesLT_of_all (by decide)) (by decide)⟩

theorem ToBytes_spec {s : BitStream} (hwf : WF s) :
    s.ToBytes.length = bytesNeededForBits s.Size ∧
    (∀ j, listTestBit s.ToBytes j = s.storeTestBit j) := by
  constructor
  · exact goCopyZ_length _ _
  · intro j
    rw [BitStream.ToBytes, goCopyZ_listTestBit]
    by_cases hj : j < 8 * bytesNeededForBits s.Size
    · rw [if_pos hj]
      rfl
    · rw [if_neg hj, hwf.1.2.1 j (by
        rw [bytesNeededForBits_eq] at hj
        have : s.Size = s.nextBitIndex := rfl
        omega)]

/-- C8: every bit of the backing store at position `≥ Size` is zero — true
of the empty stream and preserved by `AppendBits` and `AppendUint` (the
writes OR bits only below the new length, growth zero-fills) — and
consequently `ToBytes` returns exactly `ceil(Size/8)` bytes that agree with
the stream's bits, with all trailing bits of the last byte zero. -/
theorem C8_zero_tail_invariant :
    (∀ j, BitStream.storeTestBit ⟨0, none⟩ j = false) ∧
    (∀ (s : BitStream) (size : Nat) (bits : List Nat), WF s →
      (∀ k, bits.getD k 0 < 256) → bytesNeededForBits size ≤ bits.length →
      ∀ s', s.AppendBits size bits = .ok s' →
        ∀ j, s'.Size ≤ j → s'.storeTestBit j = false) ∧
    (∀ (s : BitStream) (v size : Nat), WF s → size ≤ 64 → v < 2 ^ size →
      ∀ s', s.AppendUint v size = .ok s' →
        ∀ j, s'.Size ≤ j → s'.storeTestBit j = false) ∧
    (∀ s : BitStream, WF s →
      s.ToBytes.length = bytesNeededForBits s.Size ∧
      (∀ j, j < s.Size → listTestBit s.ToBytes j = s.storeTestBit j) ∧
      (∀ j, s.Size ≤ j → listTestBit s.ToBytes j = false)) := by
  refine ⟨fun j => WF_empty.1.2.1 j (Nat.zero_le j), ?_, ?_, ?_⟩
  · intro s size bits hwf hbytes hlen s' hok j hj
    obtain ⟨s'', hok'', _, hwf'', _⟩ := AppendBits_ok hwf.1 hbytes hlen
    rw [hok''] at hok
    injection hok with h
    subst h
    exact hwf''.1.2.1 j hj
  · intro s v size hwf hs hv s' hok j hj
    obtain ⟨s'', hok'', _, hwf'', _⟩ := AppendUint_spec hwf.1 hs hv
    rw [hok''] at hok
    injection hok with h
    subst h
    exact hwf''.1.2.1 j hj
  · intro s hwf
    obtain ⟨hl, hb⟩ := ToBytes_spec hwf
    exact ⟨hl, fun j _ => hb j, fun j hj => by rw [hb j]; exact hwf.1.2.1 j hj⟩

/-- C8 witness: the zero-tail facts at concrete streams — after an 8-bit and
a 5-bit append into the empty stream — and `ToBytes` of the empty stream. -/
theorem C8_witness :
    BitStream.storeTestBit ⟨0, none⟩ 5 = false ∧
    BitStream.storeTestBit ⟨8, some [165, 0, 0, 0, 0, 0, 0, 0, 0, 0, 0, 0, 0, 0, 0, 0]⟩ 9
      = false ∧
    BitStream.storeTestBit ⟨5, some [152, 0, 0, 0, 0, 0, 0, 0, 0, 0, 0, 0, 0, 0, 0, 0]⟩ 5
      = false ∧
    (BitStream.ToBytes ⟨0, none⟩).length = bytesNeededForBits (BitStream.Size ⟨0, none⟩) :=
  ⟨C8_zero_tail_invariant.1 5,
    C8_zero_tail_invariant.2.1 ⟨0, none⟩ 8 [165] WF_empty (bytesLT_of_all (by decide))
      (by decide) ⟨8, some [165, 0, 0, 0, 0, 0, 0, 0, 0, 0, 0, 0, 0, 0, 0, 0]⟩ (by decide)
      9 (by decide),
    C8_zero_tail_invariant.2.2.1 ⟨0, none⟩ 19 5 WF_empty (by decide) (by decide)
      ⟨5, some [152, 0, 0, 0, 0, 0, 0, 0, 0, 0, 0, 0, 0, 0, 0, 0]⟩ (by decide) 5 (by decide),
    (C8_zero_tail_invariant.2.2.2 ⟨0, none⟩ WF_empty).1⟩

/-- Establish `WF` for a concrete stream by checking its (finitely many)
store bits. -/
theorem WF_of_concrete {n : Nat} {l : List Nat}
    (hb : ∀ b ∈ l, b < 256)
    (hz : ∀ j, j < 8 * l.length → n ≤ j → listTestBit l j = false)
    (hcap : bytesNeededForBits n < l.length) :
    WF ⟨n, some l⟩ := by
  refine ⟨⟨bytesLT_of_all hb, ?_, fun h => Option.noConfusion h, fun m hm => ?_⟩,
    fun m hm => ?_⟩
  · intro j hj
    have hj' : n ≤ j := hj
    show listTestBit l j = false
    by_cases hj8 : j < 8 * l.length
    · exact hz j hj8 hj'
    · exact listTestBit_oob (by omega)
  · simp only [Option.some.injEq] at hm
    subst hm
    omega
  · simp only [Option.some.injEq] at hm
    subst hm
    exact hcap

/-- C10: for well-formed streams `a` and `b` that are not both empty,
`Concat` returns a fresh stream whose length is the sum of the lengths and
whose bits are `a`'s bits followed by `b`'s bits.  `Concat` reads but never
writes its arguments — in this functional model it takes `a` and `b` by
value and builds the result from a fresh buffer, mirroring the Go code,
which allocates a new slice and only reads `a.backingStore` and
`b.backingStore`. -/
theorem C10_concat_spec (a b : BitStream) (hwa : WF a) (hwb : WF b)
    (hpos : 0 < a.Size + b.Size) :
    ∃ c, a.Concat b = .ok c ∧ c.Size = a.Size + b.Size ∧
      (∀ j, j < a.Size → c.BitAt j = a.BitAt j) ∧
      (∀ j, j < b.Size → c.BitAt (a.Size + j) = b.BitAt j) := by
  have hS : a.Size = a.nextBitIndex := rfl
  have hSb : b.Size = b.nextBitIndex := rfl
  set r : BitStream :=
    ⟨a.nextBitIndex, some (goCopy (List.replicate (bytesNeededForBits (a.Size + b.Size)) 0)
      a.storeBytes)⟩ with hr
  have hrn : r.nextBitIndex = a.nextBitIndex := rfl
  have hrstore : r.storeBytes
      = goCopy (List.replicate (bytesNeededForBits (a.Size + b.Size)) 0) a.storeBytes := rfl
  have hrbits : ∀ p, r.storeTestBit p = if p < a.Size then a.storeTestBit p else false := by
    intro p
    rw [BitStream.storeTestBit, hrstore, goCopyZ_listTestBit]
    by_cases hp : p < a.Size
    · rw [if_pos (show p < 8 * bytesNeededForBits (a.Size + b.Size) by
        rw [bytesNeededForBits_eq]; omega), if_pos hp]
      rfl
    · rw [if_neg hp]
      split
      · exact hwa.1.2.1 p (by omega)
      · rfl
  have hpre : Pre r := by
    refine ⟨?_, ?_, fun h => Option.noConfusion h, fun l hl => ?_⟩
    · intro k
      rw [hrstore, goCopyZ_getD]
      split
      · exact hwa.1.1 k
      · norm_num
    · intro j hj
      rw [hrn] at hj
      rw [hrbits j, if_neg (by omega)]
    · simp only [Option.some.injEq] at hl
      subst hl
      rw [goCopyZ_length, bytesNeededForBits_eq]
      omega
  have hlenb : bytesNeededForBits b.Size ≤ b.storeBytes.length := by
    match hbs : b.backingStore with
    | none =>
        rw [hSb, hwb.1.2.2.1 hbs, BitStream.storeBytes, hbs]
        simp [bytesNeededForBits]
    | some l =>
        rw [BitStream.storeBytes, hbs, Option.getD_some]
        exact Nat.le_of_lt (hSb ▸ hwb.2 l hbs)
  obtain ⟨c, hok, hsz, hwfc, hbits⟩ := @AppendBits_ok r b.Size b.storeBytes hpre hwb.1.1 hlenb
  refine ⟨c, ?_, by rw [hS, hSb]; rw [hrn] at hsz; exact hsz, ?_, ?_⟩
  · show BitStream.AppendBits r b.Size b.storeBytes = .ok c
    exact hok
  · intro j hj
    rw [BitAt_spec hwfc (show j < c.nextBitIndex by omega),
      BitAt_spec hwa (show j < a.nextBitIndex by omega), hbits j,
      if_neg (show ¬(r.nextBitIndex ≤ j ∧ j < r.nextBitIndex + b.Size) by omega),
      hrbits j, if_pos hj]
  · intro j hj
    rw [BitAt_spec hwfc (show a.Size + j < c.nextBitIndex by omega),
      BitAt_spec hwb (show j < b.nextBitIndex by omega), hbits (a.Size + j),
      if_pos (show r.nextBitIndex ≤ a.Size + j ∧ a.Size + j < r.nextBitIndex + b.Size
        by omega),
      show a.Size + j - r.nextBitIndex = j by omega]
    rfl

/-- C10 witness: concatenating a 3-bit and a 6-bit stream. -/
theorem C10_witness :
    ∃ c, BitStream.Concat ⟨3, some [160, 0, 0, 0, 0, 0, 0, 0, 0, 0, 0, 0, 0, 0, 0, 0]⟩
        ⟨6, some [148, 0, 0, 0, 0, 0, 0, 0, 0, 0, 0, 0, 0, 0, 0, 0]⟩ = .ok c ∧
      c.Size = BitStream.Size ⟨3, some [160, 0, 0, 0, 0, 0, 0, 0, 0, 0, 0, 0, 0, 0, 0, 0]⟩ +
        BitStream.Size ⟨6, some [148, 0, 0, 0, 0, 0, 0, 0, 0, 0, 0, 0, 0, 0, 0, 0]⟩ ∧
      (∀ j, j < BitStream.Size ⟨3, some [160, 0, 0, 0, 0, 0, 0, 0, 0, 0, 0, 0, 0, 0, 0, 0]⟩ →
        c.BitAt j = BitStream.BitAt ⟨3, some [160, 0, 0, 0, 0, 0, 0, 0, 0, 0, 0, 0, 0, 0, 0, 0]⟩ j) ∧
      (∀ j, j < BitStream.Size ⟨6, some [148, 0, 0, 0, 0, 0, 0, 0, 0, 0, 0, 0, 0, 0, 0, 0]⟩ →
        c.BitAt (BitStream.Size ⟨3, some [160, 0, 0, 0, 0, 0, 0, 0, 0, 0, 0, 0, 0, 0, 0, 0]⟩ + j)
          = BitStream.BitAt ⟨6, some [148, 0, 0, 0, 0, 0, 0, 0, 0, 0, 0, 0, 0, 0, 0, 0]⟩ j) :=
  C10_concat_spec ⟨3, some [160, 0, 0, 0, 0, 0, 0, 0, 0, 0, 0, 0, 0, 0, 0, 0]⟩
    ⟨6, some [148, 0, 0, 0, 0, 0, 0, 0, 0, 0, 0, 0, 0, 0, 0, 0]⟩
    (WF_of_concrete (by decide) (by decide) (by decide))
    (WF_of_concrete (by decide) (by decide) (by decide)) (by decide)

/-!  ## AppendBigInt / BigIntAt -/

theorem lt_two_pow_of_bitLen_le {v n : Nat} (h : bitLen v ≤ n) : v < 2 ^ n := by
  rw [bitLen] at h
  by_cases hv : v = 0
  · subst hv
    exact Nat.two_pow_pos n
  · rw [if_neg hv] at h
    exact (Nat.log2_lt hv).mp (by omega)

theorem getD_tail (l : List Nat) (k : Nat) : l.tail.getD k 0 = l.getD (k + 1) 0 := by
  rw [List.getD_eq_getElem?_getD, List.getElem?_tail, ← List.getD_eq_getElem?_getD]

theorem listTestBit_tail (l : List Nat) (j : Nat) :
    listTestBit l.tail j = listTestBit l (8 + j) := by
  rw [listTestBit, listTestBit, getD_tail, show (8 + j) / 8 = j / 8 + 1 by omega,
    show (8 + j) % 8 = j % 8 by omega]

theorem fillBytes_getD {v len i : Nat} (hi : i < len) :
    (fillBytes v len).getD i 0 = (v >>> (8 * (len - 1 - i))) % 256 := by
  rw [fillBytes, List.getD_eq_getElem?_getD, List.getElem?_map, List.getElem?_range hi]
  rfl

/-- C3: appending a non-negative big integer of bit length at most `nbits`
and reading `nbits` bits back at the same index recovers the value exactly;
in particular the misaligned split (leading `nbits mod 8` bits through the
uint codec, the remaining byte-aligned bits through the bit packer) composed
with its reverse concatenation is the identity. -/
theorem C3_bigInt_roundTrip (st : BitStream) (hwf : WF st) (v nbits : Nat)
    (hv : bitLen v ≤ nbits) :
    ∃ st', st.AppendBigInt v nbits = .ok st' ∧ st'.BigIntAt st.Size nbits = some v := by
  have hS : st.Size = st.nextBitIndex := rfl
  have hvlt : v < 2 ^ nbits := lt_two_pow_of_bitLen_le hv
  by_cases hoff : nbits % 8 = 0
  · -- byte-aligned: a single AppendBits / BitsAt pair
    obtain ⟨st', hok, hsz, hwf', hbits⟩ :=
      @AppendBits_ok st nbits (fillBytes v ((nbits + 7) / 8)) hwf.1
        (fun k => fillBytes_getD_lt _ _ k)
        (by rw [fillBytes_length, bytesNeededForBits_eq])
    refine ⟨st', ?_, ?_⟩
    · simp only [BitStream.AppendBigInt]
      rw [if_neg (show ¬bitLen v > nbits by omega), if_pos hoff]
      exact hok
    · obtain ⟨rb, hrb, hrblen, hrbb, hrbmid, hrbpost⟩ :=
        BitsAt_spec hwf' (show st.Size + nbits ≤ st'.nextBitIndex by omega)
      simp only [BitStream.BigIntAt, if_pos hoff, hrb]
      congr 1
      rw [beBytesToNat_eq_bitsVal hrbb, hrblen, bytesNeededForBits_eq,
        show 8 * ((nbits + 7) / 8) = nbits by omega]
      calc bitsVal (listTestBit rb) nbits
          = bitsVal (fun j => v.testBit (nbits - 1 - j)) nbits :=
            bitsVal_congr _ (fun j hj => by
              rw [hrbmid j hj, hbits (st.Size + j),
                if_pos (show st.nextBitIndex ≤ st.Size + j ∧
                  st.Size + j < st.nextBitIndex + nbits by omega),
                show st.Size + j - st.nextBitIndex = j by omega,
                fillBytes_listTestBit v (show j < 8 * ((nbits + 7) / 8) by omega),
                show 8 * ((nbits + 7) / 8) - 1 - j = nbits - 1 - j by omega])
        _ = v := bitsVal_recover hvlt
  · -- misaligned: AppendUint for the leading bits, AppendBits for the rest
    have h2off256 : 2 ^ (nbits % 8) ≤ 256 := by
      calc 2 ^ (nbits % 8) ≤ 2 ^ 8 := Nat.pow_le_pow_right (by omega) (by omega)
        _ = 256 := by norm_num
    have hsr : v >>> (8 * ((nbits + 7) / 8 - 1)) < 2 ^ (nbits % 8) := by
      rw [Nat.shiftRight_eq_div_pow]
      apply Nat.div_lt_of_lt_mul
      calc v < 2 ^ nbits := hvlt
        _ ≤ 2 ^ (8 * ((nbits + 7) / 8 - 1) + nbits % 8) :=
            Nat.pow_le_pow_right (by omega) (by omega)
        _ = 2 ^ (8 * ((nbits + 7) / 8 - 1)) * 2 ^ (nbits % 8) := by rw [Nat.pow_add]
    have hfbeq : (fillBytes v ((nbits + 7) / 8)).getD 0 0
        = v >>> (8 * ((nbits + 7) / 8 - 1)) := by
      rw [fillBytes_getD (by omega), Nat.sub_zero,
        Nat.mod_eq_of_lt (Nat.lt_of_lt_of_le hsr h2off256)]
    obtain ⟨s1, hok1, hsz1, hwf1, hbits1⟩ :=
      @AppendUint_spec st hwf.1 ((fillBytes v ((nbits + 7) / 8)).getD 0 0) (nbits % 8)
        (by omega) (by rw [hfbeq]; exact hsr)
    obtain ⟨st', hok2, hsz2, hwf2, hbits2⟩ :=
      @AppendBits_ok s1 (nbits - nbits % 8) (fillBytes v ((nbits + 7) / 8)).tail hwf1.1
        (fun k => by rw [getD_tail]; exact fillBytes_getD_lt _ _ _)
        (by rw [bytesNeededForBits_eq, List.length_tail, fillBytes_length]; omega)
    have hbitsAll : ∀ t, t < nbits →
        st'.storeTestBit (st.Size + t) = v.testBit (nbits - 1 - t) := by
      intro t ht
      by_cases htoff : t < nbits % 8
      · rw [hbits2 (st.Size + t),
          if_neg (show ¬(s1.nextBitIndex ≤ st.Size + t ∧
            st.Size + t < s1.nextBitIndex + (nbits - nbits % 8)) by omega),
          hbits1 (st.Size + t),
          if_pos (show st.nextBitIndex ≤ st.Size + t ∧
            st.Size + t < st.nextBitIndex + nbits % 8 by omega),
          show st.Size + t - st.nextBitIndex = t by omega, hfbeq,
          Nat.testBit_shiftRight]
        congr 1
        omega
      · rw [hbits2 (st.Size + t),
          if_pos (show s1.nextBitIndex ≤ st.Size + t ∧
            st.Size + t < s1.nextBitIndex + (nbits - nbits % 8) by omega),
          show st.Size + t - s1.nextBitIndex = t - nbits % 8 by omega,
          listTestBit_tail,
          fillBytes_listTestBit v
            (show 8 + (t - nbits % 8) < 8 * ((nbits + 7) / 8) by omega)]
        congr 1
        omega
    refine ⟨st', ?_, ?_⟩
    · simp only [BitStream.AppendBigInt]
      rw [if_neg (show ¬bitLen v > nbits by omega), if_neg hoff, hok1]
      exact hok2
    · have huint := UintAt_spec hwf2 (show nbits % 8 ≤ 64 by omega)
        (show st.Size + nbits % 8 ≤ st'.nextBitIndex by omega)
      obtain ⟨rb, hrb, hrblen, hrbb, hrbmid, hrbpost⟩ :=
        BitsAt_spec hwf2 (show st.Size + nbits % 8 + (nbits - nbits % 8)
          ≤ st'.nextBitIndex by omega)
      simp only [BitStream.BigIntAt, if_neg hoff, huint, hrb]
      congr 1
      rw [Nat.mod_eq_of_lt (Nat.lt_of_lt_of_le (bitsVal_lt _ _) h2off256)]
      have hcons : ∀ k,
          ((bitsVal (fun j => st'.storeTestBit (st.Size + j)) (nbits % 8)) :: rb).getD k 0
            < 256 := by
        intro k
        match k with
        | 0 =>
            rw [List.getD_cons_zero]
            exact Nat.lt_of_lt_of_le (bitsVal_lt _ _) h2off256
        | k + 1 =>
            rw [List.getD_cons_succ]
            exact hrbb k
      rw [beBytesToNat_eq_bitsVal hcons, List.length_cons, hrblen, bytesNeededForBits_eq,
        show 8 * ((nbits - nbits % 8 + 7) / 8 + 1) = (8 - nbits % 8) + nbits by omega,
        bitsVal_split]
      have hzero : bitsVal
          (listTestBit ((bitsVal (fun j => st'.storeTestBit (st.Size + j)) (nbits % 8)) :: rb))
          (8 - nbits % 8) = 0 := by
        apply bitsVal_eq_zero
        intro t ht
        rw [listTestBit_cons, if_pos (by omega)]
        exact Nat.testBit_lt_two_pow (Nat.lt_of_lt_of_le (bitsVal_lt _ _)
          (Nat.pow_le_pow_right (by omega) (by omega)))
      rw [hzero, Nat.zero_mul, Nat.zero_add]
      calc bitsVal (fun j =>
            listTestBit
              ((bitsVal (fun j => st'.storeTestBit (st.Size + j)) (nbits % 8)) :: rb)
              (8 - nbits % 8 + j)) nbits
          = bitsVal (fun j => v.testBit (nbits - 1 - j)) nbits := by
            apply bitsVal_congr
            intro j hj
            rw [listTestBit_cons]
            by_cases hjoff : j < nbits % 8
            · rw [if_pos (by omega),
                show 7 - (8 - nbits % 8 + j) = nbits % 8 - 1 - j by omega,
                bitsVal_testBit]
              simp only [decide_eq_true (show nbits % 8 - 1 - j < nbits % 8 by omega),
                Bool.true_and]
              rw [show nbits % 8 - 1 - (nbits % 8 - 1 - j) = j by omega,
                hbitsAll j (by omega)]
            · rw [if_neg (by omega),
                show 8 - nbits % 8 + j - 8 = j - nbits % 8 by omega,
                hrbmid (j - nbits % 8) (by omega),
                show st.Size + nbits % 8 + (j - nbits % 8) = st.Size + j by omega,
                hbitsAll j hj]
        _ = v := bitsVal_recover hvlt

/-- C3 witness: `AppendBigInt 123456789 27` on the empty stream (27 bits is
misaligned: 3 leading bits through the uint codec, 24 through the packer). -/
theorem C3_witness :
    ∃ st', BitStream.AppendBigInt ⟨0, none⟩ 123456789 27 = .ok st' ∧
      st'.BigIntAt (BitStream.Size ⟨0, none⟩) 27 = some 123456789 :=
  C3_bigInt_roundTrip ⟨0, none⟩ WF_empty 123456789 27 (by
    rw [bitLen, if_neg (show ¬(123456789 = 0) from by norm_num)]
    have h : Nat.log2 123456789 < 27 := (Nat.log2_lt (by norm_num)).mpr (by norm_num)
    omega)


/-!  ## Base32: the reverse map and the two loops -/

theorem base32Alphabet_length : base32Alphabet.length = 32 := rfl

/-- Looking an alphabet character back up recovers its index. -/
theorem base32_rev : ∀ v, v < 32 →
    base32Reversed ((base32Alphabet[v]?).getD 0) = some v := by decide

theorem base32Reversed_lt {c v : Nat} (h : base32Reversed c = some v) : v < 32 := by
  have h1 := (List.findIdx?_eq_some_iff_findIdx_eq.mp h).1
  rw [base32Alphabet_length] at h1
  exact h1

theorem base32Reversed_mem {c v : Nat} (h : base32Reversed c = some v) :
    c ∈ base32Alphabet := by
  obtain ⟨hlt, hfi⟩ := List.findIdx?_eq_some_iff_findIdx_eq.mp h
  subst hfi
  have hp := @List.findIdx_getElem _ (· == c) base32Alphabet hlt
  have he : base32Alphabet[List.findIdx (· == c) base32Alphabet] = c := eq_of_beq hp
  rw [← he]
  exact List.getElem_mem hlt

/-- The decode loop on an all-valid text: it succeeds, adds `5 * text.length`
bits, keeps the old bits, and stores each character's 5-bit value MSB-first. -/
theorem unmarshalLoop_spec (text : List Nat) :
    ∀ t : BitStream, WF t → (∀ c ∈ text, (base32Reversed c).isSome) →
    ∃ u, unmarshalLoop t text = .ok u ∧ WF u ∧
      u.nextBitIndex = t.nextBitIndex + 5 * text.length ∧
      (∀ p, p < t.nextBitIndex → u.storeTestBit p = t.storeTestBit p) ∧
      (∀ k, k < text.length → ∀ j, j < 5 →
        u.storeTestBit (t.nextBitIndex + (5 * k + j))
          = ((base32Reversed (text.getD k 0)).getD 0).testBit (4 - j)) := by
  induction text with
  | nil =>
      intro t hwf _
      exact ⟨t, rfl, hwf, by simp, fun p _ => rfl, fun k hk => absurd hk (by simp)⟩
  | cons c rest ih =>
      intro t hwf hval
      have hc : (base32Reversed c).isSome := hval c (List.mem_cons_self c rest)
      obtain ⟨v, hv⟩ := Option.isSome_iff_exists.mp hc
      have hvlt : v < 32 := base32Reversed_lt hv
      have h32 : (2:Nat) ^ 5 = 32 := by norm_num
      obtain ⟨s1, hap, hsz1, hwf1, hbits1⟩ :=
        @AppendUint_spec t hwf.1 v 5 (by omega) (by omega)
      obtain ⟨u, hrec, hwfu, hszu, hpres, hgrp⟩ :=
        ih s1 hwf1 (fun d hd => hval d (List.mem_cons_of_mem c hd))
      refine ⟨u, ?_, hwfu, ?_, ?_, ?_⟩
      · simp only [unmarshalLoop, hv, hap]
        exact hrec
      · rw [hszu, hsz1, List.length_cons]
        omega
      · intro p hp
        rw [hpres p (by omega), hbits1 p,
          if_neg (show ¬(t.nextBitIndex ≤ p ∧ p < t.nextBitIndex + 5) from by omega)]
      · intro k hk j hj
        cases k with
        | zero =>
            rw [show t.nextBitIndex + (5 * 0 + j) = t.nextBitIndex + j from by omega,
              hpres (t.nextBitIndex + j) (by omega), hbits1 (t.nextBitIndex + j),
              if_pos (⟨by omega, by omega⟩ :
                t.nextBitIndex ≤ t.nextBitIndex + j ∧
                  t.nextBitIndex + j < t.nextBitIndex + 5),
              show 5 - 1 - (t.nextBitIndex + j - t.nextBitIndex) = 4 - j from by omega,
              List.getD_cons_zero, hv, Option.getD_some]
        | succ k =>
            rw [List.getD_cons_succ,
              show t.nextBitIndex + (5 * (k + 1) + j)
                  = s1.nextBitIndex + (5 * k + j) from by omega]
            exact hgrp k (by rw [List.length_cons] at hk; omega) j hj

/-- Decoding a prefix that succeeds continues with the rest of the text. -/
theorem unmarshalLoop_append {pre : List Nat} :
    ∀ {t u : BitStream}, unmarshalLoop t pre = .ok u →
    ∀ post, unmarshalLoop t (pre ++ post) = unmarshalLoop u post := by
  induction pre with
  | nil =>
      intro t u h post
      simp only [unmarshalLoop, GoResult.ok.injEq] at h
      subst h
      rfl
  | cons c rest ih =>
      intro t u h post
      simp only [unmarshalLoop, List.cons_append] at h ⊢
      cases hv : base32Reversed c with
      | none =>
          rw [hv] at h
          exact GoResult.noConfusion h
      | some v =>
          simp only [hv] at h ⊢
          cases hap : t.AppendUint v 5 with
          | ok s1 =>
              simp only [hap] at h ⊢
              exact ih h post
          | err s1 =>
              rw [hap] at h
              exact GoResult.noConfusion h
          | panic s1 =>
              rw [hap] at h
              exact GoResult.noConfusion h
          | timeout =>
              rw [hap] at h
              exact GoResult.noConfusion h

/-- `UnmarshalBase32` on an all-valid text, for any receiver: the result is
rebuilt from the empty stream, holds `5 * text.length` bits, and reading each
5-bit group back gives the character's alphabet index. -/
theorem unmarshal_ok_spec {text : List Nat}
    (hval : ∀ c ∈ text, (base32Reversed c).isSome) (s₀ : BitStream) :
    ∃ u, s₀.UnmarshalBase32 text = .ok u ∧ WF u ∧ u.Size = 5 * text.length ∧
      (∀ k, k < text.length → u.UintAt (5 * k) 5 = base32Reversed (text.getD k 0)) ∧
      (∀ k, k < text.length → ∀ j, j < 5 →
        u.storeTestBit (5 * k + j)
          = ((base32Reversed (text.getD k 0)).getD 0).testBit (4 - j)) := by
  obtain ⟨u, hloop, hwfu, hsz, _, hgrp⟩ := unmarshalLoop_spec text ⟨0, none⟩ WF_empty hval
  have h0 : (⟨0, none⟩ : BitStream).nextBitIndex = 0 := rfl
  have hsz' : u.Size = 5 * text.length := by
    show u.nextBitIndex = 5 * text.length
    omega
  have hgrp' : ∀ k, k < text.length → ∀ j, j < 5 →
      u.storeTestBit (5 * k + j)
        = ((base32Reversed (text.getD k 0)).getD 0).testBit (4 - j) := by
    intro k hk j hj
    have h1 := hgrp k hk j hj
    rwa [h0, Nat.zero_add] at h1
  refine ⟨u, hloop, hwfu, hsz', ?_, hgrp'⟩
  intro k hk
  have hmem : text.getD k 0 ∈ text := by
    rw [List.getD_eq_getElem?_getD, List.getElem?_eq_getElem hk, Option.getD_some]
    exact List.getElem_mem hk
  obtain ⟨v, hv⟩ := Option.isSome_iff_exists.mp (hval (text.getD k 0) hmem)
  have hvlt : v < 32 := base32Reversed_lt hv
  have h32 : (2:Nat) ^ 5 = 32 := by norm_num
  have hu2 : u.Size = u.nextBitIndex := rfl
  rw [UintAt_spec hwfu (show (5:Nat) ≤ 64 from by omega)
      (show 5 * k + 5 ≤ u.nextBitIndex from by omega), hv]
  congr 1
  calc bitsVal (fun j => u.storeTestBit (5 * k + j)) 5
      = bitsVal (fun j => v.testBit (5 - 1 - j)) 5 :=
        bitsVal_congr 5 (fun j hj => by
          rw [hgrp' k hk j hj, hv, Option.getD_some])
    _ = v := bitsVal_recover (by omega)

/-- The encode loop on a well-formed stream with enough bits: one alphabet
character per 5-bit group, and looking each character back up recovers the
group's value. -/
theorem marshalLoop_spec {s : BitStream} (hwf : WF s) :
    ∀ g i, i + 5 * g ≤ s.nextBitIndex →
    ∃ text, marshalLoop s i g = some text ∧ text.length = g ∧
      ∀ k, k < g → base32Reversed (text.getD k 0)
          = some (bitsVal (fun j => s.storeTestBit (i + (5 * k + j))) 5) := by
  intro g
  induction g with
  | zero =>
      intro i _
      exact ⟨[], rfl, rfl, fun k hk => absurd hk (by omega)⟩
  | succ g ih =>
      intro i hle
      have hu : s.UintAt i 5 = some (bitsVal (fun j => s.storeTestBit (i + j)) 5) :=
        UintAt_spec hwf (by omega) (by omega)
      have h32 : (2:Nat) ^ 5 = 32 := by norm_num
      have hvlt : bitsVal (fun j => s.storeTestBit (i + j)) 5 < 32 := by
        have := bitsVal_lt (fun j => s.storeTestBit (i + j)) 5
        omega
      have hvlen : bitsVal (fun j => s.storeTestBit (i + j)) 5 < base32Alphabet.length := by
        rw [base32Alphabet_length]
        exact hvlt
      have hchar : base32Alphabet[bitsVal (fun j => s.storeTestBit (i + j)) 5]?
          = some (base32Alphabet.get ⟨_, hvlen⟩) := List.getElem?_eq_getElem hvlen
      obtain ⟨rest, hml, hrlen, hrprop⟩ := ih (i + 5) (by omega)
      refine ⟨base32Alphabet.get ⟨_, hvlen⟩ :: rest, ?_, ?_, ?_⟩
      · simp only [marshalLoop, hu, hchar, hml]
      · rw [List.length_cons, hrlen]
      · intro k hk
        cases k with
        | zero =>
            rw [List.getD_cons_zero]
            have hrev := base32_rev (bitsVal (fun j => s.storeTestBit (i + j)) 5) hvlt
            rw [hchar, Option.getD_some] at hrev
            rw [hrev]
            exact congrArg some (bitsVal_congr 5 (fun j hj => by
              rw [show i + (5 * 0 + j) = i + j from by omega]))
        | succ k =>
            rw [List.getD_cons_succ, hrprop k (by omega)]
            congr 1
            exact bitsVal_congr 5 (fun j hj => by
              rw [show i + (5 * (k + 1) + j) = i + 5 + (5 * k + j) from by omega])

/-- C9: `UnmarshalBase32` ignores the receiver's old contents (it rebuilds
from the empty stream, so the result depends only on the text — the reset).
If every byte of the text is in the alphabet it returns `ok` with exactly
`5 * text.length` bits, the `k`-th 5-bit group reading back as the `k`-th
character's alphabet index; if the text splits as `pre ++ c :: rest` with
`pre` all valid and `c` invalid, it returns `err` with the receiver holding
exactly the `5 * pre.length` bits decoded from `pre`. -/
theorem C9_unmarshal_base32 (s₀ : BitStream) (text : List Nat) :
    ((∀ c ∈ text, (base32Reversed c).isSome) →
      ∃ u, s₀.UnmarshalBase32 text = .ok u ∧ u.Size = 5 * text.length ∧
        ∀ k, k < text.length →
          u.UintAt (5 * k) 5 = base32Reversed (text.getD k 0)) ∧
    (∀ pre c rest, text = pre ++ c :: rest →
      (∀ d ∈ pre, (base32Reversed d).isSome) →
      base32Reversed c = none →
      ∃ u, s₀.UnmarshalBase32 text = .err u ∧ u.Size = 5 * pre.length ∧
        ∀ k, k < pre.length →
          u.UintAt (5 * k) 5 = base32Reversed (pre.getD k 0)) := by
  constructor
  · intro hval
    obtain ⟨u, hok, _, hsz, hvals, _⟩ := unmarshal_ok_spec hval s₀
    exact ⟨u, hok, hsz, hvals⟩
  · intro pre c rest htext hpre hc
    obtain ⟨u, hok, _, hsz, hvals, _⟩ := unmarshal_ok_spec hpre s₀
    refine ⟨u, ?_, hsz, hvals⟩
    have hloop : unmarshalLoop ⟨0, none⟩ pre = .ok u := hok
    rw [htext]
    show unmarshalLoop ⟨0, none⟩ (pre ++ c :: rest) = .err u
    rw [unmarshalLoop_append hloop (c :: rest)]
    simp only [unmarshalLoop, hc]

/-- C9 witness: decoding the valid text `"BA"` succeeds with 10 bits, and
decoding `"A0B"` (`0` is not in the alphabet) fails after the 5 bits of
`"A"`. -/
theorem C9_witness :
    (∃ u, BitStream.UnmarshalBase32 ⟨0, none⟩ [66, 65] = .ok u ∧
        u.Size = 5 * [66, 65].length ∧
        ∀ k, k < [66, 65].length →
          u.UintAt (5 * k) 5 = base32Reversed ([66, 65].getD k 0)) ∧
    (∃ u, BitStream.UnmarshalBase32 ⟨0, none⟩ [65, 48, 66] = .err u ∧
        u.Size = 5 * [65].length ∧
        ∀ k, k < [65].length →
          u.UintAt (5 * k) 5 = base32Reversed ([65].getD k 0)) :=
  ⟨(C9_unmarshal_base32 ⟨0, none⟩ [66, 65]).1 (by decide),
   (C9_unmarshal_base32 ⟨0, none⟩ [65, 48, 66]).2 [65] 48 [66] rfl
     (by decide) (by decide)⟩

/-- C4: on a well-formed stream whose size is a multiple of 5,
`MarshalBase32` succeeds with one alphabet character per 5-bit group, and
`UnmarshalBase32` of that text succeeds and reproduces the stream
bit-for-bit (equal `Size` and equal `BitAt j` for every in-range `j`). -/
theorem C4_base32_roundTrip (s : BitStream) (hwf : WF s) (h5 : s.Size % 5 = 0) :
    ∃ text, s.MarshalBase32 = some text ∧ text.length = s.Size / 5 ∧
      (∀ c ∈ text, c ∈ base32Alphabet) ∧
      ∃ u, s.UnmarshalBase32 text = .ok u ∧ u.Size = s.Size ∧
        ∀ j, j < s.Size → u.BitAt j = s.BitAt j := by
  have hS : s.Size = s.nextBitIndex := rfl
  have h5n : s.nextBitIndex % 5 = 0 := h5
  obtain ⟨text, hml, hlen, hprop⟩ := marshalLoop_spec hwf (s.Size / 5) 0
    (show 0 + 5 * (s.nextBitIndex / 5) ≤ s.nextBitIndex from by omega)
  have hgd : ∀ c ∈ text, ∃ k, ∃ hk : k < text.length, text.getD k 0 = c := by
    intro c hcm
    obtain ⟨k, hk, hck⟩ := List.getElem_of_mem hcm
    refine ⟨k, hk, ?_⟩
    rw [List.getD_eq_getElem?_getD, List.getElem?_eq_getElem hk, Option.getD_some, hck]
  have hmem : ∀ c ∈ text, c ∈ base32Alphabet := by
    intro c hcm
    obtain ⟨k, hk, hck⟩ := hgd c hcm
    have h1 := hprop k (by omega)
    rw [hck] at h1
    exact base32Reversed_mem h1
  have hval : ∀ c ∈ text, (base32Reversed c).isSome := by
    intro c hcm
    obtain ⟨k, hk, hck⟩ := hgd c hcm
    have h1 := hprop k (by omega)
    rw [hck] at h1
    rw [h1]
    rfl
  obtain ⟨u, hok, hwfu, hszu, _, hgrp⟩ := unmarshal_ok_spec hval s
  have hu2 : u.Size = u.nextBitIndex := rfl
  refine ⟨text, ?_, hlen, hmem, u, hok, by omega, ?_⟩
  · simp only [BitStream.MarshalBase32,
      if_neg (show ¬(s.Size % 5 ≠ 0) from fun h => h h5)]
    exact hml
  · intro p hp
    have hp' : p < s.nextBitIndex := hp
    have hk : p / 5 < text.length := by omega
    have h1 := hgrp (p / 5) hk (p % 5) (by omega)
    rw [hprop (p / 5) (by omega)] at h1
    simp only [Option.getD_some, bitsVal_testBit] at h1
    rw [decide_eq_true (show 4 - p % 5 < 5 from by omega), Bool.true_and,
      show 5 - 1 - (4 - p % 5) = p % 5 from by omega,
      show (0:Nat) + (5 * (p / 5) + p % 5) = p from by omega,
      show 5 * (p / 5) + p % 5 = p from by omega] at h1
    rw [BitAt_spec hwfu (show p < u.nextBitIndex from by omega),
      BitAt_spec hwf (show p < s.nextBitIndex from by omega), h1]

/-- C4 witness: the 5-bit stream `10011` (one byte `0x98`, 15 spare zero
bytes) marshals to one character and unmarshals back to the same bits. -/
theorem C4_witness :
    (BitStream.Size ⟨5, some (152 :: List.replicate 15 0)⟩) % 5 = 0 ∧
    ∃ text, BitStream.MarshalBase32 ⟨5, some (152 :: List.replicate 15 0)⟩ = some text ∧
      text.length = (BitStream.Size ⟨5, some (152 :: List.replicate 15 0)⟩) / 5 ∧
      (∀ c ∈ text, c ∈ base32Alphabet) ∧
      ∃ u, BitStream.UnmarshalBase32 ⟨5, some (152 :: List.replicate 15 0)⟩ text = .ok u ∧
        u.Size = BitStream.Size ⟨5, some (152 :: List.replicate 15 0)⟩ ∧
        ∀ j, j < BitStream.Size ⟨5, some (152 :: List.replicate 15 0)⟩ →
          u.BitAt j = BitStream.BitAt ⟨5, some (152 :: List.replicate 15 0)⟩ j :=
  ⟨rfl, C4_base32_roundTrip ⟨5, some (152 :: List.replicate 15 0)⟩
    (WF_of_concrete (by decide) (by decide) (by decide)) rfl⟩

end GoBitstream
